import Mathlib

/-!
# OnlyFiles: access-control core of the scoped file-transfer service

A shallow embedding of `main.go`: the path confiner (`safePath`), the upload name
sanitiser (`sanitizeName`), the one-time code store (`consumeCodeFile`), the token store
(`newToken`, `consumeToken`, the janitor loop) and the string computations of the list and
upload handlers, together with the Go library routines they call (Unix build of
`path/filepath`, `strings.Trim`, `strings.TrimSpace`, `subtle.ConstantTimeCompare`,
`hex.EncodeToString`).

Modelling conventions.
* A Go string is the list of its characters.  The path routines only ever inspect the
  characters `/` and `.`.
* The process environment a function reads is passed explicitly: the working directory
  returned by `os.Getwd` (`none` when it fails), the wall clock, the bytes delivered by
  `rand.Read`, the contents of the codes directory.
* Instants and durations are integers (nanoseconds).
-/

namespace OnlyFiles

/-- A Go string. -/
abbrev GoString := List Char

/-! ## Library: `path/filepath` (Unix) -/

/-- The Unix `os.IsPathSeparator`. -/
def isPathSeparator (c : Char) : Bool := c == '/'

/-- The inner loop of the dot-dot case of `Clean`: starting from write index `w`, step
back while `w > dotdot` and the byte at `w` is not a separator. -/
def backtrack (buf : List Char) (dotdot : Nat) : Nat → Nat
  | 0 => 0
  | w + 1 =>
    if w + 1 > dotdot && !isPathSeparator (buf.getD (w + 1) '/') then backtrack buf dotdot w
    else w + 1

/-- The main loop of `filepath.Clean`.  `path` is the unread input `path[r:]`, `out` the
bytes written so far (`buf[0:w]` of the lazy buffer), `dotdot` the index where a dot-dot
element must stop.  Every iteration consumes at least one input byte, so a fuel of
`len(path)` is never exhausted. -/
def cleanLoop (rooted : Bool) : Nat → List Char → List Char → Nat → List Char
  | 0, _, out, _ => out
  | fuel + 1, path, out, dotdot =>
    match path with
    | [] => out
    | c :: rest =>
      if isPathSeparator c then
        -- empty path element
        cleanLoop rooted fuel rest out dotdot
      else if c == '.' && (rest.isEmpty || isPathSeparator (rest.headD '/')) then
        -- . element
        cleanLoop rooted fuel rest out dotdot
      else if c == '.' && rest.headD '/' == '.' &&
          (rest.tail.isEmpty || isPathSeparator (rest.tail.headD '/')) then
        -- .. element: remove to last separator
        if out.length > dotdot then
          cleanLoop rooted fuel rest.tail
            (out.take (backtrack out dotdot (out.length - 1))) dotdot
        else if !rooted then
          let out1 := if out.length > 0 then out ++ ['/'] else out
          let out2 := out1 ++ ['.', '.']
          cleanLoop rooted fuel rest.tail out2 out2.length
        else
          cleanLoop rooted fuel rest.tail out dotdot
      else
        -- real path element: add slash if needed, then copy the element
        let out1 :=
          if (rooted && out.length != 1) || (!rooted && out.length != 0) then out ++ ['/']
          else out
        cleanLoop rooted fuel ((c :: rest).dropWhile (fun b => !isPathSeparator b))
          (out1 ++ (c :: rest).takeWhile (fun b => !isPathSeparator b)) dotdot

/-- The Unix `filepath.Clean` (no volume name, `FromSlash` is the identity). -/
def Clean (path : GoString) : GoString :=
  match path with
  | [] => ['.']
  | c :: _ =>
    let rooted := isPathSeparator c
    let out :=
      if rooted then cleanLoop rooted path.length path.tail ['/'] 1
      else cleanLoop rooted path.length path [] 0
    if out.length == 0 then ['.'] else out

/-- The Go `strings.Join`. -/
def stringsJoin (elems : List GoString) (sep : GoString) : GoString :=
  sep.intercalate elems

/-- The Unix `filepath.Join`: drop leading empty elements, join the rest with the separator
and clean; all elements empty gives the empty string. -/
def Join : List GoString → GoString
  | [] => []
  | e :: rest => if e != [] then Clean (stringsJoin (e :: rest) ['/']) else Join rest

/-- The Unix `filepath.IsAbs`. -/
def IsAbs (path : GoString) : Bool := ['/'].isPrefixOf path

/-- Errors a path resolution can return. -/
inductive PathError where
  /-- The error of `os.Getwd`, passed on by `filepath.Abs`. -/
  | getwd
  /-- The error of the confinement check of `safePath`; the handlers answer 403. -/
  | forbidden
  deriving DecidableEq, Repr

deriving instance DecidableEq for Except

/-- What `os.Getwd` returns when it succeeds: a rooted path name. -/
structure WorkDir where
  path : GoString
  rooted : IsAbs path = true

/-- The Unix `filepath.Abs`; `wd` is the outcome of `os.Getwd` (`none` when it fails). -/
def Abs (wd : Option WorkDir) (path : GoString) : Except PathError GoString :=
  if IsAbs path then .ok (Clean path)
  else
    match wd with
    | none => .error .getwd
    | some w => .ok (Join [w.path, path])

/-- The Unix `filepath.Base`. -/
def Base (path : GoString) : GoString :=
  if path == [] then ['.']
  else
    -- strip trailing slashes
    let path1 := (path.reverse.dropWhile isPathSeparator).reverse
    -- find the last element
    let path2 := (path1.reverse.takeWhile (fun c => !isPathSeparator c)).reverse
    -- if empty now, it had only slashes
    if path2 == [] then ['/'] else path2

/-- The Unix `filepath.Dir`. -/
def Dir (path : GoString) : GoString :=
  Clean (path.reverse.dropWhile (fun c => !isPathSeparator c)).reverse

/-- The Unix `filepath.ToSlash`: the separator already is the slash. -/
def ToSlash (path : GoString) : GoString := path

/-! ## Library: `strings`, `crypto/subtle`, `encoding/hex`, `time` -/

/-- The Go `strings.HasPrefix`. -/
def HasPrefix (s pre : GoString) : Bool := pre.isPrefixOf s

/-- The Go `strings.Trim`: strip the characters of `cutset` from both ends. -/
def Trim (s cutset : GoString) : GoString :=
  ((s.dropWhile (fun c => cutset.contains c)).reverse.dropWhile
    (fun c => cutset.contains c)).reverse

/-- The Go `unicode.IsSpace`. -/
def isSpace (c : Char) : Bool :=
  let n := c.toNat
  (9 ≤ n && n ≤ 13) || n == 32 || n == 133 || n == 160 || n == 5760 ||
    (8192 ≤ n && n ≤ 8202) || n == 8232 || n == 8233 || n == 8239 || n == 8287 || n == 12288

/-- The Go `strings.TrimSpace`. -/
def TrimSpace (s : GoString) : GoString :=
  ((s.dropWhile isSpace).reverse.dropWhile isSpace).reverse

/-- The conversion `[]byte(s)`, one number per character. -/
def bytesOf (s : GoString) : List Nat := s.map Char.toNat

/-- The Go `subtle.ConstantTimeByteEq` on 32-bit words. -/
def ConstantTimeByteEq (x y : Nat) : Nat :=
  (((x ^^^ y) + 2 ^ 32 - 1) % 2 ^ 32) >>> 31

/-- The Go `subtle.ConstantTimeCompare`: 0 on a length mismatch, else fold the xor of the
positions into `v` and test `v` against zero. -/
def ConstantTimeCompare (x y : List Nat) : Nat :=
  if x.length != y.length then 0
  else ConstantTimeByteEq ((List.zip x y).foldl (fun v xy => v ||| (xy.1 ^^^ xy.2)) 0) 0

/-- One lower-case hexadecimal digit. -/
def hexDigit (n : Nat) : Char := "0123456789abcdef".toList.getD n '0'

/-- The Go `hex.EncodeToString`. -/
def hexEncodeToString (b : List Nat) : GoString :=
  b.flatMap (fun x => [hexDigit (x / 16 % 16), hexDigit (x % 16)])

/-- An instant (`time.Time`), in nanoseconds. -/
abbrev Time := Int

/-- A `time.Duration`, in nanoseconds. -/
abbrev Duration := Int

/-- The Go `Time.After`. -/
def After (t u : Time) : Bool := decide (u < t)

/-- The Go `Time.Add`. -/
def Add (t : Time) (d : Duration) : Time := t + d

/-! ## `main.go`: constants -/

/-- The browsable root directory. -/
def ROOT_DIR : GoString := "./files".toList

/-! ## `main.go`: one-time codes -/

/-- One `*.code` entry of the codes directory as the process sees it: its path, what
`os.ReadFile` yields (`none` when the read fails) and whether `os.Remove` succeeds on it. -/
structure CodeFile where
  path : GoString
  content : Option GoString
  removable : Bool
  deriving DecidableEq, Repr

/-- The codes directory: the matches of `filepath.Glob(dir/*.code)` in the order returned.
Paths are distinct. -/
abbrev CodesDir := List CodeFile

/-- The effect of `os.Remove(p)` on the directory. -/
def osRemove (d : CodesDir) (f : CodeFile) : CodesDir :=
  if f.removable then d.filter (fun g => g.path != f.path) else d

/-- The `for _, p := range matches` loop of `consumeCodeFile`; `d` is the whole directory,
`matches` the entries still to visit.  Returns the verdict and the directory afterwards. -/
def consumeLoop (input : GoString) (d : CodesDir) : List CodeFile → Bool × CodesDir
  | [] => (false, d)
  | f :: rest =>
    match f.content with
    | none => consumeLoop input d rest
    | some b =>
      let code := TrimSpace b
      if ConstantTimeCompare (bytesOf code) (bytesOf input) == 1 then
        (true, osRemove d f)
      else consumeLoop input d rest

/-- The function `consumeCodeFile`: the verdict (the reason string is dropped) and the codes
directory afterwards.  `globErr` tells whether `filepath.Glob` reports an error (it does
only for a malformed pattern, which depends on `CODES_DIR` alone). -/
def consumeCodeFile (globErr : Bool) (d : CodesDir) (input : GoString) : Bool × CodesDir :=
  let input := TrimSpace input
  if input == [] then (false, d)
  else if globErr then (false, d)
  else consumeLoop input d d

/-! ## `main.go`: token store -/

/-- The struct `tokenEntry`. -/
structure tokenEntry where
  ExpireAt : Time
  deriving DecidableEq, Repr

/-- The global `tokens` map. -/
abbrev Tokens := AList (fun _ : GoString => tokenEntry)

/-- The function `newToken`: `rnd i` is byte `i` delivered by `rand.Read`, `now` the clock.
Returns the token and the store afterwards. -/
def newToken (s : Tokens) (rnd : Nat → Nat) (now : Time) (ttl : Duration) :
    GoString × Tokens :=
  let b := (List.range 16).map (fun i => rnd i % 256)
  let t := hexEncodeToString b
  (t, s.insert t { ExpireAt := Add now ttl })

/-- The function `consumeToken`; `now` is the clock read by the call. -/
def consumeToken (s : Tokens) (t : GoString) (now : Time) : Bool × Tokens :=
  if t == [] then (false, s)
  else
    match s.lookup t with
    | none => (false, s.erase t)
    | some ent =>
      if After now ent.ExpireAt then (false, s.erase t)
      else (true, s.erase t)

/-- One pass of the loop body of `startTokenJanitor`.  `order` is the order in which the
`range` over the map yields its keys; an entry is produced only while still present. -/
def janitorPass (s : Tokens) (now : Time) (order : List GoString) : Tokens :=
  order.foldl
    (fun m k =>
      match m.lookup k with
      | none => m
      | some v => if After now v.ExpireAt then m.erase k else m)
    s

/-- The states the token store can be in: it starts empty and is only ever changed by
`newToken`, `consumeToken` and the janitor. -/
inductive Reachable : Tokens → Prop where
  | init : Reachable ∅
  | newToken {s : Tokens} (rnd : Nat → Nat) (now : Time) (ttl : Duration) :
      Reachable s → Reachable (newToken s rnd now ttl).2
  | consumeToken {s : Tokens} (t : GoString) (now : Time) :
      Reachable s → Reachable (consumeToken s t now).2
  | janitorPass {s : Tokens} (now : Time) (order : List GoString) :
      Reachable s → Reachable (janitorPass s now order)

/-! ## `main.go`: path confinement and handlers -/

/-- The function `safePath`; `wd` is the outcome of `os.Getwd` during the call. -/
def safePath (wd : Option WorkDir) (base rel : GoString) : Except PathError GoString :=
  let clean := Clean ('/' :: rel)
  let full := Join [base, clean]
  match Abs wd full with
  | .error e => .error e
  | .ok fullAbs =>
    let rootAbs := match Abs wd base with
      | .ok r => r
      | .error _ => []
    if !HasPrefix fullAbs rootAbs then .error .forbidden
    else .ok fullAbs

/-- The function `sanitizeName`. -/
def sanitizeName (name : GoString) : GoString := Base name

/-- The `cwd` value computed by `listHandler` from the `dir` query value. -/
def listCwd (dir : GoString) : GoString :=
  let dir := if dir == [] then ['/'] else dir
  let cleanDir := '/' :: (Trim dir ['/'] ++ ['/'])
  if cleanDir == ['/', '/'] then ['/'] else cleanDir

/-- What `uploadHandler` does with the file part once the target directory is confined. -/
inductive UploadStep where
  /-- The 400 answer "missing file name". -/
  | missingFileName
  /-- The call `os.Create(dstPath)`. -/
  | create (dstPath : GoString)
  deriving DecidableEq, Repr

/-- The file-part branch of `uploadHandler`: sanitise the declared name, reject the empty
result, otherwise create `Join(absDir, filename)`. -/
def uploadFilePart (absDir fileName : GoString) : UploadStep :=
  let filename := sanitizeName fileName
  if filename == [] then .missingFileName
  else .create (Join [absDir, filename])

/-- The `url` field of the upload response. -/
def uploadUrl (dir savedAs : GoString) : GoString :=
  "/__fs_download?path=".toList ++ ToSlash (Join [dir, savedAs])

/-- How far a read route gets before it touches the filesystem. -/
inductive RouteStep where
  /-- The 400 answer for a missing parameter. -/
  | badRequest
  /-- The 403 answer given when `safePath` returns an error. -/
  | forbidden
  /-- The handler goes on to read the confined path `abs`. -/
  | proceed (abs : GoString)
  deriving DecidableEq, Repr

/-- The head of `listHandler`: default the `dir` query value to the root, confine it. -/
def listHandlerStep (wd : Option WorkDir) (dir : GoString) : RouteStep :=
  let dir := if dir == [] then ['/'] else dir
  match safePath wd ROOT_DIR dir with
  | .error _ => .forbidden
  | .ok abs => .proceed abs

/-- The head of `downloadHandler`: reject a missing `path`, confine it. -/
def downloadHandlerStep (wd : Option WorkDir) (path : GoString) : RouteStep :=
  if path == [] then .badRequest
  else
    match safePath wd ROOT_DIR path with
    | .error _ => .forbidden
    | .ok abs => .proceed abs

/-! ## Specification vocabulary -/

/-- A store operation other than `newToken`: a redemption attempt or a janitor pass. -/
inductive TokenOp where
  | consume (t : GoString) (now : Time)
  | sweep (now : Time) (order : List GoString)

/-- The store after one operation. -/
def TokenOp.run (s : Tokens) : TokenOp → Tokens
  | .consume t now => (consumeToken s t now).2
  | .sweep now order => janitorPass s now order

/-- The store after a sequence of operations. -/
def runOps (s : Tokens) (ops : List TokenOp) : Tokens := ops.foldl TokenOp.run s

/-- The entry survives a sweep at `now`: `now` is not after its expiry. -/
def unexpired (now : Time) (e : tokenEntry) : Bool := !After now e.ExpireAt

/-- The code file is readable and holds the code `input` (both trimmed). -/
def holdsCode (input : GoString) (f : CodeFile) : Bool :=
  match f.content with
  | none => false
  | some b => TrimSpace b == TrimSpace input

/-- The codes directory after a redemption attempt with `input`. -/
def afterRedeem (globErr : Bool) (input : GoString) (d : CodesDir) : CodesDir :=
  (consumeCodeFile globErr d input).2

/-- A path element: non-empty and free of separators. -/
def isElem (e : GoString) : Bool := e != [] && e.all (fun c => !isPathSeparator c)

/-- A plain name: a path element other than the dot and dot-dot elements. -/
def isPlain (e : GoString) : Bool := isElem e && e != ['.'] && e != ['.', '.']

/-- The elements of a path: its maximal separator-free runs, in order. -/
def elems : Nat → List Char → List GoString
  | 0, _ => []
  | _ + 1, [] => []
  | fuel + 1, c :: rest =>
    if isPathSeparator c then elems fuel rest
    else (c :: rest.takeWhile (fun b => !isPathSeparator b)) ::
      elems fuel (rest.dropWhile (fun b => !isPathSeparator b))

/-- The elements of `path`. -/
def elemsOf (path : GoString) : List GoString := elems path.length path

/-- Lexical processing of one element on a stack of elements (top first): a dot is
skipped, a dot-dot pops a name, is dropped at the root of a rooted path and is kept at the
bottom of an unrooted one; a name is pushed. -/
def step (rooted : Bool) (st : List GoString) (x : GoString) : List GoString :=
  if x = ['.'] then st
  else if x = ['.', '.'] then
    match st with
    | [] => if rooted then [] else [x]
    | t :: rest => if t = ['.', '.'] then x :: st else rest
  else x :: st

/-- Append one element to written output, with the separator rule of `Clean`. -/
def pushElem (rooted : Bool) (out e : List Char) : List Char :=
  (if (rooted && out.length != 1) || (!rooted && out.length != 0) then out ++ ['/'] else out)
    ++ e

/-- The output buffer that spells a stack of elements (top first). -/
def buf (rooted : Bool) : List GoString → List Char
  | [] => if rooted then ['/'] else []
  | e :: st => pushElem rooted (buf rooted st) e

/-- The cleaned path that spells a stack of elements. -/
def render (rooted : Bool) (st : List GoString) : GoString :=
  if (buf rooted st).length == 0 then ['.'] else buf rooted st

/-- The path of the entry `name` of the directory `dir`. -/
def childOf (dir name : GoString) : GoString :=
  if dir.getLast? = some '/' then dir ++ name else dir ++ '/' :: name

/-- The path reached from `root` by descending through the names `cs` in turn. -/
def underRoot (root : GoString) (cs : List GoString) : GoString := cs.foldl childOf root

/-- The path `p` is `root` itself or continues `root` after a separator (the final
separator of `root` when `root` is the filesystem root). -/
def insideRoot (root p : GoString) : Bool :=
  p == root || HasPrefix p (if root.getLast? = some '/' then root else root ++ ['/'])

/-- The elements of the absolute root that `safePath` confines to (top first): those of
`base` when it is rooted, else those of the working directory followed by those of `base`. -/
def rootStack (wd : Option WorkDir) (base : GoString) : List GoString :=
  if IsAbs base then List.foldl (step true) [] (elemsOf base)
  else
    match wd with
    | none => []
    | some w =>
      List.foldl (step true) (List.foldl (step true) [] (elemsOf w.path)) (elemsOf base)

/-! # Proofs -/

/-! ## Constant-time comparison -/

theorem foldl_lor_eq_zero (l : List (Nat × Nat)) (v : Nat) :
    l.foldl (fun v xy => v ||| (xy.1 ^^^ xy.2)) v = 0 ↔ v = 0 ∧ ∀ xy ∈ l, xy.1 = xy.2 := by
  induction l generalizing v with
  | nil => simp
  | cons a l ih =>
    rw [List.foldl_cons, ih]
    constructor
    · rintro ⟨h1, h2⟩
      have hv : v = 0 := by
        apply Nat.eq_of_testBit_eq; intro i
        have := congrArg (fun n => n.testBit i) h1
        simp only [Nat.testBit_or, Nat.zero_testBit, Bool.or_eq_false_iff] at this
        simpa using this.1
      have ha : a.1 ^^^ a.2 = 0 := by
        apply Nat.eq_of_testBit_eq; intro i
        have := congrArg (fun n => n.testBit i) h1
        simp only [Nat.testBit_or, Nat.zero_testBit, Bool.or_eq_false_iff] at this
        simpa using this.2
      refine ⟨hv, ?_⟩
      intro xy hxy
      rcases List.mem_cons.1 hxy with rfl | h
      · exact Nat.xor_eq_zero.1 ha
      · exact h2 xy h
    · rintro ⟨h1, h2⟩
      refine ⟨?_, fun xy h => h2 xy (List.mem_cons_of_mem _ h)⟩
      have := h2 a (List.mem_cons_self _ _)
      rw [h1, this, Nat.xor_self]
      rfl

theorem foldl_lor_lt (n : Nat) (l : List (Nat × Nat)) (v : Nat) (hv : v < 2 ^ n)
    (hl : ∀ xy ∈ l, xy.1 < 2 ^ n ∧ xy.2 < 2 ^ n) :
    l.foldl (fun v xy => v ||| (xy.1 ^^^ xy.2)) v < 2 ^ n := by
  induction l generalizing v with
  | nil => simpa using hv
  | cons a l ih =>
    rw [List.foldl_cons]
    apply ih
    · have := hl a (List.mem_cons_self _ _)
      exact Nat.or_lt_two_pow hv (Nat.xor_lt_two_pow this.1 this.2)
    · exact fun xy h => hl xy (List.mem_cons_of_mem _ h)

theorem ConstantTimeByteEq_zero (v : Nat) (hv : v < 2 ^ 31) :
    ConstantTimeByteEq v 0 = 1 ↔ v = 0 := by
  unfold ConstantTimeByteEq
  rw [Nat.xor_zero, Nat.shiftRight_eq_div_pow]
  constructor
  · intro h
    by_contra hne
    have h1 : (v + 2 ^ 32 - 1) % 2 ^ 32 = v - 1 := by omega
    rw [h1] at h
    have : (v - 1) / 2 ^ 31 = 0 := Nat.div_eq_of_lt (by omega)
    omega
  · rintro rfl
    decide

theorem zip_forall_eq {x y : List Nat} (hlen : x.length = y.length)
    (h : ∀ xy ∈ List.zip x y, xy.1 = xy.2) : x = y := by
  induction x generalizing y with
  | nil => cases y with
    | nil => rfl
    | cons b y => simp at hlen
  | cons a x ih =>
    cases y with
    | nil => simp at hlen
    | cons b y =>
      have h1 := h (a, b) (by simp)
      simp only at h1
      subst h1
      congr 1
      apply ih (by simpa using hlen)
      intro xy hxy
      exact h xy (by simp [List.zip_cons_cons, hxy])

theorem zip_self_fst_eq_snd (l : List Nat) : ∀ xy ∈ List.zip l l, xy.1 = xy.2 := by
  induction l with
  | nil => simp
  | cons a l ih =>
    intro xy hxy
    rcases List.mem_cons.1 (by simpa [List.zip_cons_cons] using hxy) with h | h
    · rw [h]
    · exact ih xy h

theorem bytesOf_lt (s : GoString) : ∀ n ∈ bytesOf s, n < 2 ^ 31 := by
  intro n hn
  simp only [bytesOf, List.mem_map] at hn
  obtain ⟨c, _, rfl⟩ := hn
  have hc := c.valid
  simp only [UInt32.isValidChar, Nat.isValidChar] at hc
  have : c.toNat = c.val.toNat := rfl
  omega

theorem bytesOf_injective {a b : GoString} (h : bytesOf a = bytesOf b) : a = b := by
  unfold bytesOf at h
  exact List.map_injective_iff.2 (fun c d hcd => Char.ext (UInt32.ext hcd)) h

theorem ConstantTimeCompare_bytesOf (a b : GoString) :
    (ConstantTimeCompare (bytesOf a) (bytesOf b) == 1) = (a == b) := by
  have key : ConstantTimeCompare (bytesOf a) (bytesOf b) = 1 ↔ a = b := by
    unfold ConstantTimeCompare
    by_cases hlen : (bytesOf a).length = (bytesOf b).length
    · have hl : ((bytesOf a).length != (bytesOf b).length) = false := by simpa using hlen
      rw [hl]
      simp only [Bool.false_eq_true, if_false]
      have hbound : ∀ xy ∈ List.zip (bytesOf a) (bytesOf b), xy.1 < 2 ^ 31 ∧ xy.2 < 2 ^ 31 := by
        intro xy hxy
        exact ⟨bytesOf_lt a _ (List.of_mem_zip hxy).1, bytesOf_lt b _ (List.of_mem_zip hxy).2⟩
      rw [ConstantTimeByteEq_zero _ (foldl_lor_lt 31 _ 0 (by decide) hbound), foldl_lor_eq_zero]
      constructor
      · rintro ⟨_, h⟩
        exact bytesOf_injective (zip_forall_eq hlen h)
      · rintro rfl
        exact ⟨rfl, zip_self_fst_eq_snd _⟩
    · have hl : ((bytesOf a).length != (bytesOf b).length) = true := by simpa using hlen
      rw [hl]
      simp only [if_true]
      constructor
      · intro h; cases h
      · rintro rfl; exact absurd rfl hlen
  by_cases hab : a = b
  · subst hab
    simp [key.2 rfl]
  · have : ConstantTimeCompare (bytesOf a) (bytesOf b) ≠ 1 := fun h => hab (key.1 h)
    simp [this, hab]


/-! ## One-time codes -/

theorem consumeLoop_no_match (input : GoString) (d : CodesDir) (l : List CodeFile)
    (h : ∀ f ∈ l, holdsCode input f = false) :
    consumeLoop (TrimSpace input) d l = (false, d) := by
  induction l with
  | nil => rfl
  | cons f rest ih =>
    have hf := h f (List.mem_cons_self _ _)
    have hrest := ih (fun g hg => h g (List.mem_cons_of_mem _ hg))
    unfold consumeLoop
    cases hc : f.content with
    | none => simpa using hrest
    | some b =>
      simp only [holdsCode, hc] at hf
      simp only [ConstantTimeCompare_bytesOf, hf]
      simpa using hrest

theorem consumeLoop_success (input : GoString) (d : CodesDir) (l : List CodeFile)
    (h : (consumeLoop (TrimSpace input) d l).1 = true) :
    ∃ f ∈ l, holdsCode input f = true ∧ (consumeLoop (TrimSpace input) d l).2 = osRemove d f := by
  induction l with
  | nil => simp [consumeLoop] at h
  | cons f rest ih =>
    unfold consumeLoop at h ⊢
    cases hc : f.content with
    | none =>
      simp only [hc] at h ⊢
      obtain ⟨g, hg, h1, h2⟩ := ih h
      exact ⟨g, List.mem_cons_of_mem _ hg, h1, h2⟩
    | some b =>
      simp only [hc, ConstantTimeCompare_bytesOf] at h ⊢
      by_cases hm : (TrimSpace b == TrimSpace input) = true
      · simp only [hm, if_true]
        exact ⟨f, List.mem_cons_self _ _, by simp [holdsCode, hc, hm], rfl⟩
      · simp only [hm] at h ⊢
        obtain ⟨g, hg, h1, h2⟩ := ih h
        exact ⟨g, List.mem_cons_of_mem _ hg, h1, h2⟩

theorem consumeCodeFile_no_match (g : Bool) (input : GoString) (d : CodesDir)
    (h : ∀ f ∈ d, holdsCode input f = false) : consumeCodeFile g d input = (false, d) := by
  unfold consumeCodeFile
  by_cases hi : (TrimSpace input == []) = true
  · simp [hi]
  · cases g
    · simp only [hi, Bool.false_eq_true, if_false]
      exact consumeLoop_no_match input d d h
    · simp [hi]

theorem countP_le_one_unique {p : CodeFile → Bool} {d : CodesDir} (hc : d.countP p ≤ 1)
    {f g : CodeFile} (hf : f ∈ d) (hg : g ∈ d) (pf : p f = true) (pg : p g = true)
    (hne : g.path ≠ f.path) : False := by
  induction d with
  | nil => cases hf
  | cons a d ih =>
    rcases List.mem_cons.1 hf with rfl | hf1
    · rcases List.mem_cons.1 hg with rfl | hg1
      · exact hne rfl
      · have : 0 < d.countP p := List.countP_pos_iff.2 ⟨g, hg1, pg⟩
        rw [List.countP_cons_of_pos _ _ pf] at hc
        omega
    · rcases List.mem_cons.1 hg with rfl | hg1
      · have : 0 < d.countP p := List.countP_pos_iff.2 ⟨f, hf1, pf⟩
        rw [List.countP_cons_of_pos _ _ pg] at hc
        omega
      · apply ih _ hf1 hg1
        have := List.countP_cons p a d
        split at this <;> omega

theorem iterate_afterRedeem_fixed (g : Bool) (input : GoString) (d : CodesDir)
    (h : ∀ f ∈ d, holdsCode input f = false) (n : Nat) : (afterRedeem g input)^[n] d = d := by
  induction n with
  | zero => rfl
  | succ n ih =>
    rw [Function.iterate_succ_apply]
    have : afterRedeem g input d = d := by
      simp [afterRedeem, consumeCodeFile_no_match g input d h]
    rw [this, ih]

/-- C5 (as amended): if `consumeCodeFile(c)` succeeds on a codes directory in which at most
one readable code file holds `c` and every file holding `c` can be removed, then every later
call `consumeCodeFile(c)` on the resulting directory (no code file created in between)
fails: the call after `n` further attempts returns false, for every `n`. -/
theorem consumeCodeFile_once (g : Bool) (d : CodesDir) (c : GoString)
    (hok : (consumeCodeFile g d c).1 = true)
    (huniq : d.countP (holdsCode c) ≤ 1)
    (hrem : ∀ f ∈ d, holdsCode c f = true → f.removable = true) (n : Nat) :
    (consumeCodeFile g ((afterRedeem g c)^[n] (consumeCodeFile g d c).2) c).1 = false := by
  have hnone : ∀ x ∈ (consumeCodeFile g d c).2, holdsCode c x = false := by
    unfold consumeCodeFile at hok ⊢
    by_cases hi : (TrimSpace c == []) = true
    · simp [hi] at hok
    · cases g
      · simp only [hi, Bool.false_eq_true, if_false] at hok ⊢
        obtain ⟨f, hf, hm, hd⟩ := consumeLoop_success c d d hok
        rw [hd]
        intro x hx
        simp only [osRemove, hrem f hf hm, if_true, List.mem_filter, bne_iff_ne] at hx
        cases hxc : holdsCode c x with
        | false => rfl
        | true => exact (countP_le_one_unique huniq hf hx.1 hm hxc hx.2).elim
      · simp [hi] at hok
  rw [iterate_afterRedeem_fixed g c _ hnone n, consumeCodeFile_no_match g c _ hnone]

/-- C5, instance: two code files with different codes, the first of them redeemed and then
tried again three times. -/
theorem consumeCodeFile_once_witness :
    (consumeCodeFile false
      ((afterRedeem false "AB12CD34".toList)^[2]
        (consumeCodeFile false
          [⟨"AB12CD34.code".toList, some "AB12CD34\n".toList, true⟩,
           ⟨"ZZ99ZZ99.code".toList, some "ZZ99ZZ99\n".toList, true⟩]
          "AB12CD34".toList).2) "AB12CD34".toList).1 = false :=
  consumeCodeFile_once false
    [⟨"AB12CD34.code".toList, some "AB12CD34\n".toList, true⟩,
     ⟨"ZZ99ZZ99.code".toList, some "ZZ99ZZ99\n".toList, true⟩]
    "AB12CD34".toList (by decide) (by decide) (by decide) 2

/-- C5, as stated, fails: with two code files holding the same code a second redemption
of that code succeeds, and so does a second redemption when the matched file cannot be
removed. -/
theorem consumeCodeFile_twice_ok :
    ((consumeCodeFile false
        [⟨"a.code".toList, some "AB12CD34\n".toList, true⟩,
         ⟨"b.code".toList, some "AB12CD34\n".toList, true⟩] "AB12CD34".toList).1 = true ∧
     (consumeCodeFile false (consumeCodeFile false
        [⟨"a.code".toList, some "AB12CD34\n".toList, true⟩,
         ⟨"b.code".toList, some "AB12CD34\n".toList, true⟩] "AB12CD34".toList).2
      "AB12CD34".toList).1 = true) ∧
    ((consumeCodeFile false
        [⟨"a.code".toList, some "AB12CD34\n".toList, false⟩] "AB12CD34".toList).1 = true ∧
     (consumeCodeFile false (consumeCodeFile false
        [⟨"a.code".toList, some "AB12CD34\n".toList, false⟩] "AB12CD34".toList).2
      "AB12CD34".toList).1 = true) := by
  decide

/-! ## Token store -/

theorem lookup_janitorStep (now : Time) (m : Tokens) (k0 k : GoString) :
    AList.lookup k
      (match m.lookup k0 with
        | none => m
        | some v => if After now v.ExpireAt then m.erase k0 else m) =
      if k = k0 then (m.lookup k).filter (unexpired now) else m.lookup k := by
  by_cases hk : k = k0
  · subst hk
    cases h : m.lookup k with
    | none => simp [h]
    | some v =>
      by_cases ha : After now v.ExpireAt = true
      · simp [ha, AList.lookup_erase, unexpired, Option.filter]
      · simp [ha, h, unexpired, Option.filter]
  · cases h : m.lookup k0 with
    | none => simp [hk]
    | some v =>
      by_cases ha : After now v.ExpireAt = true
      · simp [ha, hk, AList.lookup_erase_ne hk]
      · simp [ha, hk]

theorem filter_unexpired_idem (now : Time) (o : Option tokenEntry) :
    (o.filter (unexpired now)).filter (unexpired now) = o.filter (unexpired now) := by
  cases o with
  | none => rfl
  | some e =>
    by_cases h : unexpired now e = true
    · simp [Option.filter, h]
    · simp [Option.filter, h]

theorem lookup_janitorPass (now : Time) (order : List GoString) (s : Tokens) (k : GoString) :
    AList.lookup k (janitorPass s now order) =
      if k ∈ order then (s.lookup k).filter (unexpired now) else s.lookup k := by
  induction order generalizing s with
  | nil => simp [janitorPass]
  | cons k0 rest ih =>
    have hstep : janitorPass s now (k0 :: rest) =
        janitorPass (match s.lookup k0 with
          | none => s
          | some v => if After now v.ExpireAt then s.erase k0 else s) now rest := rfl
    rw [hstep, ih, lookup_janitorStep]
    by_cases hk : k = k0
    · subst hk
      by_cases hr : k ∈ rest
      · simp [hr, filter_unexpired_idem]
      · simp [hr]
    · by_cases hr : k ∈ rest
      · simp [hr, hk]
      · simp [hr, hk]

theorem lookup_consumeToken (s : Tokens) (t : GoString) (now : Time) (k : GoString) :
    AList.lookup k (consumeToken s t now).2 = none ∨
      AList.lookup k (consumeToken s t now).2 = s.lookup k := by
  unfold consumeToken
  by_cases ht : t = []
  · simp [ht]
  · have hte : (t == []) = false := by simpa using ht
    by_cases hk : k = t
    · subst hk
      left
      cases h : s.lookup k with
      | none => simp [hte, h, AList.lookup_erase]
      | some e =>
        by_cases ha : After now e.ExpireAt = true
        · simp [hte, h, ha, AList.lookup_erase]
        · simp [hte, h, ha, AList.lookup_erase]
    · right
      cases h : s.lookup t with
      | none => simp [hte, h, AList.lookup_erase_ne hk]
      | some e =>
        by_cases ha : After now e.ExpireAt = true
        · simp [hte, h, ha, AList.lookup_erase_ne hk]
        · simp [hte, h, ha, AList.lookup_erase_ne hk]

theorem lookup_run (s : Tokens) (op : TokenOp) (k : GoString) :
    AList.lookup k (op.run s) = none ∨ AList.lookup k (op.run s) = s.lookup k := by
  cases op with
  | consume t now => exact lookup_consumeToken s t now k
  | sweep now order =>
    simp only [TokenOp.run, lookup_janitorPass]
    by_cases hr : k ∈ order
    · cases h : s.lookup k with
      | none => simp [hr, Option.filter]
      | some e =>
        by_cases hu : unexpired now e = true
        · simp [hr, Option.filter, hu]
        · simp [hr, Option.filter, hu]
    · simp [hr]

theorem lookup_runOps (ops : List TokenOp) (s : Tokens) (k : GoString) :
    AList.lookup k (runOps s ops) = none ∨ AList.lookup k (runOps s ops) = s.lookup k := by
  induction ops generalizing s with
  | nil => right; rfl
  | cons op rest ih =>
    have h : runOps s (op :: rest) = runOps (op.run s) rest := rfl
    rw [h]
    rcases ih (op.run s) with h1 | h1
    · left; exact h1
    · rcases lookup_run s op k with h2 | h2
      · left; rw [h1, h2]
      · right; rw [h1, h2]

theorem consumeToken_true_iff (s : Tokens) (t : GoString) (now : Time) :
    (consumeToken s t now).1 = true ↔
      t ≠ [] ∧ ∃ e, s.lookup t = some e ∧ After now e.ExpireAt = false := by
  unfold consumeToken
  by_cases ht : t = []
  · simp [ht]
  · have hte : (t == []) = false := by simpa using ht
    cases h : s.lookup t with
    | none => simp [hte, ht]
    | some e =>
      by_cases ha : After now e.ExpireAt = true
      · simp [hte, ht, ha]
      · simp [hte, ht, ha]

theorem consumeToken_of_lookup_none (s : Tokens) (t : GoString) (now : Time)
    (h : s.lookup t = none) : (consumeToken s t now).1 = false := by
  cases hc : (consumeToken s t now).1 with
  | false => rfl
  | true =>
    obtain ⟨_, e, he, _⟩ := (consumeToken_true_iff s t now).1 hc
    rw [h] at he
    cases he

theorem hexEncodeToString_length (b : List Nat) : (hexEncodeToString b).length = 2 * b.length := by
  induction b with
  | nil => rfl
  | cons x xs ih =>
    simp only [hexEncodeToString, List.flatMap_cons, List.length_append, List.length_cons,
      List.length_nil] at ih ⊢
    omega

theorem newToken_ne_nil (s : Tokens) (rnd : Nat → Nat) (now : Time) (ttl : Duration) :
    (newToken s rnd now ttl).1 ≠ [] := by
  intro h
  have := congrArg List.length h
  simp [newToken, hexEncodeToString_length] at this

theorem reachable_nil_not_mem {s : Tokens} (h : Reachable s) : s.lookup [] = none := by
  induction h with
  | init => exact AList.lookup_empty _
  | @newToken s0 rnd now ttl _ ih =>
    have hne := newToken_ne_nil s0 rnd now ttl
    have hins : (newToken s0 rnd now ttl).2 =
        AList.insert (newToken s0 rnd now ttl).1 { ExpireAt := Add now ttl } s0 := rfl
    rw [hins, AList.lookup_insert_ne (Ne.symm hne)]
    exact ih
  | consumeToken t now _ ih =>
    rcases lookup_consumeToken _ t now [] with h1 | h1
    · exact h1
    · rw [h1]; exact ih
  | janitorPass now order _ ih =>
    rcases lookup_run _ (.sweep now order) [] with h1 | h1
    · exact h1
    · exact h1.trans ih

theorem lookup_after_consume {s : Tokens} (h : Reachable s) (t : GoString) (now : Time) :
    AList.lookup t (consumeToken s t now).2 = none := by
  by_cases ht : t = []
  · subst ht
    exact reachable_nil_not_mem (Reachable.consumeToken [] now h)
  · have hte : (t == []) = false := by simpa using ht
    unfold consumeToken
    cases hl : s.lookup t with
    | none => simp [hte, AList.lookup_erase]
    | some e =>
      by_cases ha : After now e.ExpireAt = true
      · simp [hte, ha, AList.lookup_erase]
      · simp [hte, ha, AList.lookup_erase]

/-- C3: `consumeToken(t)` at time `now` returns true exactly when `t` is non-empty, `t` is
a key of the store and `now` is not after the entry's `ExpireAt`; and a token issued by
`newToken` at time `t0` with ttl `ttl` is refused at every `now > t0 + ttl`, whether or
not a janitor pass or another redemption attempt happened in between. -/
theorem consumeToken_spec (s : Tokens) (t : GoString) (now : Time) :
    ((consumeToken s t now).1 = true ↔
      t ≠ [] ∧ ∃ e, s.lookup t = some e ∧ After now e.ExpireAt = false) ∧
    (∀ (rnd : Nat → Nat) (t0 : Time) (ttl : Duration) (ops : List TokenOp),
      t0 + ttl < now →
      (consumeToken (runOps (newToken s rnd t0 ttl).2 ops) (newToken s rnd t0 ttl).1 now).1
        = false) := by
  refine ⟨consumeToken_true_iff s t now, ?_⟩
  intro rnd t0 ttl ops hlt
  cases hc : (consumeToken (runOps (newToken s rnd t0 ttl).2 ops) (newToken s rnd t0 ttl).1 now).1 with
  | false => rfl
  | true =>
    obtain ⟨_, e, he, hexp⟩ := (consumeToken_true_iff _ _ now).1 hc
    rcases lookup_runOps ops (newToken s rnd t0 ttl).2 (newToken s rnd t0 ttl).1 with h1 | h1
    · rw [h1] at he; cases he
    · rw [h1] at he
      have hins : AList.lookup (newToken s rnd t0 ttl).1 (newToken s rnd t0 ttl).2 =
          some { ExpireAt := Add t0 ttl } := AList.lookup_insert _
      rw [hins] at he
      cases he
      simp only [After, Add, decide_eq_false_iff_not, not_lt] at hexp
      exact absurd hlt (not_lt.2 hexp)

/-- C4: for every token store, every string `t` and every pair of redemption times, when
`consumeToken(t)` is called twice with no `newToken` call in between (other redemption
attempts and janitor passes allowed), the second call returns false whatever the first
returned; and in every state the store can reach, after the first call `t` is not a key of
the store. -/
theorem consumeToken_twice (s : Tokens) (t : GoString) (now1 now2 : Time)
    (ops : List TokenOp) :
    (consumeToken (runOps (consumeToken s t now1).2 ops) t now2).1 = false ∧
      (Reachable s → t ∉ (consumeToken s t now1).2.keys) := by
  refine ⟨?_, ?_⟩
  · by_cases ht : t = []
    · subst ht
      rfl
    · apply consumeToken_of_lookup_none
      have h0 : AList.lookup t (consumeToken s t now1).2 = none := by
        rcases lookup_consumeToken s t now1 t with h | h
        · exact h
        · have hte : (t == []) = false := by simpa using ht
          unfold consumeToken
          cases hl : s.lookup t with
          | none => simp [hte, AList.lookup_erase]
          | some e =>
            by_cases ha : After now1 e.ExpireAt = true
            · simp [hte, ha, AList.lookup_erase]
            · simp [hte, ha, AList.lookup_erase]
      rcases lookup_runOps ops (consumeToken s t now1).2 t with h1 | h1
      · exact h1
      · rw [h1]; exact h0
  · intro hs
    rw [← AList.mem_keys]
    exact AList.lookup_eq_none.1 (lookup_after_consume hs t now1)

/-- C9: one pass of the janitor loop body at time `now`, visiting every key of the store,
leaves each key with `lookup = (old lookup).filter unexpired`: the keys afterwards are
exactly the old keys whose `ExpireAt` is not before `now`, each with its entry unchanged; no
expired entry stays, no unexpired entry is removed or altered, none is added. -/
theorem janitorPass_spec (s : Tokens) (now : Time) (order : List GoString)
    (hall : ∀ k, k ∈ s.keys → k ∈ order) (k : GoString) :
    AList.lookup k (janitorPass s now order) = (s.lookup k).filter (unexpired now) ∧
    (k ∈ (janitorPass s now order).keys ↔
      ∃ e, s.lookup k = some e ∧ After now e.ExpireAt = false) := by
  have h1 : AList.lookup k (janitorPass s now order) = (s.lookup k).filter (unexpired now) := by
    rw [lookup_janitorPass]
    by_cases hr : k ∈ order
    · simp [hr]
    · have : s.lookup k = none := by
        rw [AList.lookup_eq_none, AList.mem_keys]
        exact fun hk => hr (hall k hk)
      simp [hr, this]
  refine ⟨h1, ?_⟩
  rw [← AList.mem_keys, ← AList.lookup_isSome, h1]
  cases h : s.lookup k with
  | none => simp
  | some e =>
    by_cases hu : After now e.ExpireAt = true
    · simp [Option.filter, unexpired, hu]
    · simp [Option.filter, unexpired, hu]

/-- C3, instance: a token issued at 1000 with ttl 120 is refused at 1121. -/
theorem consumeToken_spec_witness :
    (consumeToken (runOps (newToken ∅ (fun i => 7 * i) 1000 120).2 [.sweep 1050 []])
      (newToken ∅ (fun i => 7 * i) 1000 120).1 1121).1 = false :=
  (consumeToken_spec ∅ [] 1121).2 (fun i => 7 * i) 1000 120 [.sweep 1050 []] (by decide)

/-- C4, instance: a freshly issued token redeemed at 1010 and again at 1020. -/
theorem consumeToken_twice_witness :
    (consumeToken (runOps (consumeToken (newToken ∅ (fun i => 7 * i) 1000 120).2
        (newToken ∅ (fun i => 7 * i) 1000 120).1 1010).2 [.sweep 1050 []])
      (newToken ∅ (fun i => 7 * i) 1000 120).1 1020).1 = false ∧
    (newToken ∅ (fun i => 7 * i) 1000 120).1 ∉
      (consumeToken (newToken ∅ (fun i => 7 * i) 1000 120).2
        (newToken ∅ (fun i => 7 * i) 1000 120).1 1010).2.keys :=
  ⟨(consumeToken_twice (newToken ∅ (fun i => 7 * i) 1000 120).2
      (newToken ∅ (fun i => 7 * i) 1000 120).1 1010 1020 [.sweep 1050 []]).1,
    (consumeToken_twice (newToken ∅ (fun i => 7 * i) 1000 120).2
      (newToken ∅ (fun i => 7 * i) 1000 120).1 1010 1020 [.sweep 1050 []]).2
      (Reachable.newToken (fun i => 7 * i) 1000 120 Reachable.init)⟩

/-- C9, instance: a store holding one token, swept after its expiry. -/
theorem janitorPass_spec_witness :
    AList.lookup (newToken ∅ (fun i => 7 * i) 1000 120).1
        (janitorPass (newToken ∅ (fun i => 7 * i) 1000 120).2 1121
          (newToken ∅ (fun i => 7 * i) 1000 120).2.keys) =
      (AList.lookup (newToken ∅ (fun i => 7 * i) 1000 120).1
        (newToken ∅ (fun i => 7 * i) 1000 120).2).filter (unexpired 1121) ∧
    ((newToken ∅ (fun i => 7 * i) 1000 120).1 ∈
        (janitorPass (newToken ∅ (fun i => 7 * i) 1000 120).2 1121
          (newToken ∅ (fun i => 7 * i) 1000 120).2.keys).keys ↔
      ∃ e, AList.lookup (newToken ∅ (fun i => 7 * i) 1000 120).1
          (newToken ∅ (fun i => 7 * i) 1000 120).2 = some e ∧
        After 1121 e.ExpireAt = false) :=
  janitorPass_spec (newToken ∅ (fun i => 7 * i) 1000 120).2 1121
    (newToken ∅ (fun i => 7 * i) 1000 120).2.keys (fun _ hk => hk)
    (newToken ∅ (fun i => 7 * i) 1000 120).1

/-! ## Listing: the echoed directory -/

theorem Trim_slashes (dir : GoString) (h : ∀ c ∈ dir, c = '/') : Trim dir ['/'] = [] := by
  have h1 : dir.dropWhile (fun c => ['/'].contains c) = [] := by
    rw [List.dropWhile_eq_nil_iff]
    intro c hc
    simp [h c hc]
  unfold Trim
  rw [h1]
  rfl

theorem Trim_eq_nil (dir : GoString) (h : Trim dir ['/'] = []) : ∀ c ∈ dir, c = '/' := by
  unfold Trim at h
  rw [List.reverse_eq_nil_iff, List.dropWhile_eq_nil_iff] at h
  have h2 : ∀ c ∈ dir.dropWhile (fun c => ['/'].contains c), c = '/' := by
    intro c hc
    simpa using h c (List.mem_reverse.2 hc)
  intro c hc
  have hsplit := List.takeWhile_append_dropWhile (fun c => ['/'].contains c) dir
  rw [← hsplit] at hc
  rcases List.mem_append.1 hc with h3 | h3
  · simpa using (List.mem_takeWhile_imp h3)
  · exact h2 c h3

/-- C8: for every `dir` query value the `cwd` string of the list response starts with `/`
and ends with `/`, is never `//`, and is exactly `/` when (and only when) `dir` is empty or
consists of `/` characters only. -/
theorem listCwd_spec (dir : GoString) :
    (listCwd dir).head? = some '/' ∧ (listCwd dir).getLast? = some '/' ∧
      listCwd dir ≠ ['/', '/'] ∧ (listCwd dir = ['/'] ↔ ∀ c ∈ dir, c = '/') := by
  unfold listCwd
  by_cases hd : dir = []
  · subst hd
    simp [Trim]
  · have hde : (dir == []) = false := by simpa using hd
    simp only [hde, Bool.false_eq_true, if_false]
    by_cases ht : Trim dir ['/'] = []
    · have hall := Trim_eq_nil dir ht
      rw [ht]
      exact ⟨rfl, rfl, by decide, fun _ => hall, fun _ => rfl⟩
    · have hne : ('/' :: (Trim dir ['/'] ++ ['/']) == ['/', '/']) = false := by
        cases hT : Trim dir ['/'] with
        | nil => exact absurd hT ht
        | cons a l => cases l <;> simp
      rw [hne]
      simp only [Bool.false_eq_true, if_false]
      refine ⟨rfl, ?_, ?_, ?_⟩
      · rw [← List.cons_append, List.getLast?_append]; rfl
      · intro h
        rw [h] at hne
        exact absurd hne (by decide)
      · constructor
        · intro h
          simp at h
        · intro h
          exact absurd (Trim_slashes dir h) ht

/-! ## Upload: the sanitised name -/

theorem Base_ne_nil (path : GoString) : Base path ≠ [] := by
  unfold Base
  by_cases hp : (path == []) = true
  · simp [hp]
  · simp only [hp, Bool.false_eq_true, if_false]
    by_cases h2 : ((((path.reverse.dropWhile isPathSeparator).reverse).reverse.takeWhile
        (fun c => !isPathSeparator c)).reverse == []) = true
    · rw [if_pos h2]; exact List.cons_ne_nil _ _
    · rw [if_neg h2]; simpa using h2

/-- C10: for every string `name`, the empty one included, `sanitizeName(name)` is
non-empty, so the file-part branch of `uploadHandler` never answers "missing file name"; a
part declared with the empty name goes on to create `Join(absDir, ".")`. -/
theorem sanitizeName_nonempty (absDir name : GoString) :
    sanitizeName name ≠ [] ∧ uploadFilePart absDir name ≠ .missingFileName ∧
      uploadFilePart absDir [] = .create (Join [absDir, ['.']]) := by
  have h := Base_ne_nil name
  refine ⟨h, ?_, ?_⟩
  · unfold uploadFilePart sanitizeName
    have : (Base name == []) = false := by simpa using h
    simp [this]
  · rfl

/-! ## Path elements -/

theorem length_dropWhile_le_self (p : Char → Bool) (l : List Char) :
    (l.dropWhile p).length ≤ l.length := by
  induction l with
  | nil => simp
  | cons a l ih =>
    rw [List.dropWhile_cons]
    split
    · exact Nat.le_succ_of_le ih
    · exact Nat.le_refl _

theorem elems_fuel_irrel (fuel : Nat) : ∀ (path : List Char) (fuel2 : Nat),
    path.length ≤ fuel → path.length ≤ fuel2 → elems fuel path = elems fuel2 path := by
  induction fuel with
  | zero =>
    intro path fuel2 h1 _
    have : path = [] := List.eq_nil_of_length_eq_zero (Nat.le_zero.1 h1)
    subst this
    cases fuel2 <;> rfl
  | succ fuel ih =>
    intro path fuel2 h1 h2
    cases path with
    | nil => cases fuel2 <;> rfl
    | cons c rest =>
      cases fuel2 with
      | zero => simp at h2
      | succ fuel2 =>
        simp only [List.length_cons, Nat.succ_le_succ_iff] at h1 h2
        simp only [elems]
        split
        · exact ih rest fuel2 h1 h2
        · congr 1
          exact ih _ fuel2 (Nat.le_trans (length_dropWhile_le_self _ _) h1)
            (Nat.le_trans (length_dropWhile_le_self _ _) h2)

theorem elemsOf_nil : elemsOf [] = [] := rfl

theorem elemsOf_cons_sep (c : Char) (rest : List Char) (h : isPathSeparator c = true) :
    elemsOf (c :: rest) = elemsOf rest := by
  simp [elemsOf, elems, h]

theorem elemsOf_cons_elem (c : Char) (rest : List Char) (h : isPathSeparator c = false) :
    elemsOf (c :: rest) = (c :: rest.takeWhile (fun b => !isPathSeparator b)) ::
      elemsOf (rest.dropWhile (fun b => !isPathSeparator b)) := by
  simp only [elemsOf, elems, h, List.length_cons, Bool.false_eq_true, if_false]
  congr 1
  exact elems_fuel_irrel _ _ _ (length_dropWhile_le_self _ _) (Nat.le_refl _)

theorem takeWhile_append_stop (p : Char → Bool) (xs ys : List Char) (y : Char)
    (hy : p y = false) : (xs ++ y :: ys).takeWhile p = xs.takeWhile p := by
  induction xs with
  | nil => simp [List.takeWhile_cons, hy]
  | cons a xs ih =>
    simp only [List.cons_append, List.takeWhile_cons]
    split
    · rw [ih]
    · rfl

theorem dropWhile_append_stop (p : Char → Bool) (xs ys : List Char) (y : Char)
    (hy : p y = false) : (xs ++ y :: ys).dropWhile p = xs.dropWhile p ++ y :: ys := by
  induction xs with
  | nil => simp [List.dropWhile_cons, hy]
  | cons a xs ih =>
    simp only [List.cons_append, List.dropWhile_cons]
    split
    · rw [ih]
    · rfl

theorem elemsOf_append_sep_aux (b : List Char) (n : Nat) : ∀ a : List Char, a.length ≤ n →
    elemsOf (a ++ '/' :: b) = elemsOf a ++ elemsOf b := by
  induction n with
  | zero =>
    intro a ha
    have : a = [] := List.eq_nil_of_length_eq_zero (Nat.le_zero.1 ha)
    subst this
    exact elemsOf_cons_sep _ _ rfl
  | succ n ih =>
    intro a ha
    cases a with
    | nil => exact elemsOf_cons_sep _ _ rfl
    | cons c rest =>
      simp only [List.length_cons, Nat.succ_le_succ_iff] at ha
      by_cases hc : isPathSeparator c = true
      · rw [List.cons_append, elemsOf_cons_sep _ _ hc, elemsOf_cons_sep _ _ hc]
        exact ih rest ha
      · have hc2 : isPathSeparator c = false := by simpa using hc
        rw [List.cons_append, elemsOf_cons_elem _ _ hc2, elemsOf_cons_elem _ _ hc2,
          takeWhile_append_stop _ _ _ _ (by rfl), dropWhile_append_stop _ _ _ _ (by rfl)]
        rw [List.cons_append]
        congr 1
        exact ih _ (Nat.le_trans (length_dropWhile_le_self _ _) ha)

theorem elemsOf_append_sep (a b : List Char) :
    elemsOf (a ++ '/' :: b) = elemsOf a ++ elemsOf b :=
  elemsOf_append_sep_aux b a.length a (Nat.le_refl _)

theorem takeWhile_of_all (p : Char → Bool) (l : List Char) (h : l.all p = true) :
    l.takeWhile p = l := by
  induction l with
  | nil => rfl
  | cons a l ih =>
    simp only [List.all_cons, Bool.and_eq_true] at h
    simp [List.takeWhile_cons, h.1, ih h.2]

theorem dropWhile_of_all (p : Char → Bool) (l : List Char) (h : l.all p = true) :
    l.dropWhile p = [] := by
  induction l with
  | nil => rfl
  | cons a l ih =>
    simp only [List.all_cons, Bool.and_eq_true] at h
    simp [List.dropWhile_cons, h.1, ih h.2]

theorem elemsOf_of_isElem (e : GoString) (h : isElem e = true) : elemsOf e = [e] := by
  cases e with
  | nil => simp [isElem] at h
  | cons c rest =>
    simp only [isElem, List.all_cons, Bool.and_eq_true] at h
    have hc : isPathSeparator c = false := by simpa using h.2.1
    rw [elemsOf_cons_elem _ _ hc, takeWhile_of_all _ _ h.2.2, dropWhile_of_all _ _ h.2.2]
    rfl

theorem takeWhile_all (p : Char → Bool) (l : List Char) : (l.takeWhile p).all p = true := by
  induction l with
  | nil => rfl
  | cons a l ih =>
    rw [List.takeWhile_cons]
    split
    · simp [*]
    · rfl

theorem isElem_of_mem_elemsOf_aux (n : Nat) : ∀ path : List Char, path.length ≤ n →
    ∀ e ∈ elemsOf path, isElem e = true := by
  induction n with
  | zero =>
    intro path hp e he
    have : path = [] := List.eq_nil_of_length_eq_zero (Nat.le_zero.1 hp)
    subst this
    cases he
  | succ n ih =>
    intro path hp
    cases path with
    | nil => intro e he; cases he
    | cons c rest =>
      simp only [List.length_cons, Nat.succ_le_succ_iff] at hp
      by_cases hc : isPathSeparator c = true
      · rw [elemsOf_cons_sep _ _ hc]
        exact ih rest hp
      · have hc2 : isPathSeparator c = false := by simpa using hc
        rw [elemsOf_cons_elem _ _ hc2]
        intro e he
        rcases List.mem_cons.1 he with rfl | he
        · simp only [isElem, List.all_cons, Bool.and_eq_true]
          exact ⟨by simp, by simp [hc2], takeWhile_all _ _⟩
        · exact ih _ (Nat.le_trans (length_dropWhile_le_self _ _) hp) e he

theorem isElem_of_mem_elemsOf (path : List Char) : ∀ e ∈ elemsOf path, isElem e = true :=
  isElem_of_mem_elemsOf_aux path.length path (Nat.le_refl _)

/-! ## The output buffer -/

theorem isElem_ne_nil {e : GoString} (h : isElem e = true) : e ≠ [] := by
  intro h0; subst h0; simp [isElem] at h

theorem isElem_all {e : GoString} (h : isElem e = true) :
    e.all (fun c => !isPathSeparator c) = true := by
  simp only [isElem, Bool.and_eq_true] at h
  exact h.2

theorem isElem_length_pos {e : GoString} (h : isElem e = true) : 0 < e.length :=
  List.length_pos.2 (isElem_ne_nil h)

theorem buf_nil_length (r : Bool) : (buf r []).length = if r then 1 else 0 := by
  cases r <;> rfl

theorem pushElem_length_ge (r : Bool) (out e : List Char) :
    out.length + e.length ≤ (pushElem r out e).length := by
  unfold pushElem
  split <;> simp

theorem buf_length_ge (r : Bool) (st : List GoString) (h : ∀ e ∈ st, isElem e = true) :
    (if r then 1 else 0) + st.length ≤ (buf r st).length := by
  induction st with
  | nil => rw [buf_nil_length]; simp
  | cons e st ih =>
    have h1 := ih (fun x hx => h x (List.mem_cons_of_mem _ hx))
    have h2 := isElem_length_pos (h e (List.mem_cons_self _ _))
    have h3 := pushElem_length_ge r (buf r st) e
    simp only [buf, List.length_cons]
    omega

theorem buf_cons_of_ne_nil (r : Bool) (e : GoString) (st : List GoString) (hst : st ≠ [])
    (h : ∀ x ∈ st, isElem x = true) : buf r (e :: st) = buf r st ++ '/' :: e := by
  have hl := buf_length_ge r st h
  have hpos : 0 < st.length := List.length_pos.2 hst
  simp only [buf, pushElem]
  cases r
  · have : (buf false st).length ≠ 0 := by simp at hl; omega
    simp [this]
  · have : (buf true st).length ≠ 1 := by simp at hl; omega
    simp [this]

theorem buf_singleton (r : Bool) (e : GoString) :
    buf r [e] = (if r then ['/'] else []) ++ e := by
  cases r <;> simp [buf, pushElem]

theorem buf_append_of (r : Bool) (st : List GoString) (up : List GoString)
    (h : ∀ x ∈ st ++ up, isElem x = true) : (buf r up).length ≤ (buf r (st ++ up)).length := by
  induction st with
  | nil => exact Nat.le_refl _
  | cons e st ih =>
    have h1 := ih (fun x hx => h x (List.mem_cons_of_mem _ hx))
    have h3 := pushElem_length_ge r (buf r (st ++ up)) e
    have h4 : buf r (e :: st ++ up) = pushElem r (buf r (st ++ up)) e := rfl
    rw [h4]
    omega

theorem buf_cons_length_lt (r : Bool) (e : GoString) (st : List GoString)
    (he : isElem e = true) : (buf r st).length < (buf r (e :: st)).length := by
  have h2 := isElem_length_pos he
  have h3 := pushElem_length_ge r (buf r st) e
  simp only [buf]
  omega

/-! ## Stepping back over the last element -/

theorem backtrack_skip (b : List Char) (dd a : Nat) (hdd : dd ≤ a) :
    ∀ k : Nat, (∀ i, a < i → i ≤ a + k → isPathSeparator (b.getD i '/') = false) →
      backtrack b dd (a + k) = backtrack b dd a := by
  intro k
  induction k with
  | zero => intro _; rfl
  | succ k ih =>
    intro h
    have h1 : isPathSeparator (b.getD (a + k + 1) '/') = false :=
      h (a + k + 1) (by omega) (by omega)
    have h2 : decide (a + k + 1 > dd) = true := by simp; omega
    have : backtrack b dd (a + (k + 1)) = backtrack b dd (a + k) := by
      show backtrack b dd (a + k + 1) = _
      simp only [backtrack, h1, h2]
      simp
    rw [this]
    exact ih (fun i hi1 hi2 => h i hi1 (by omega))

theorem getD_append_elem (X e : List Char) (he : e.all (fun c => !isPathSeparator c) = true)
    (i : Nat) (hi : X.length ≤ i) : isPathSeparator ((X ++ e).getD i '/') = false ∨
      e.length ≤ i - X.length := by
  by_cases h : i - X.length < e.length
  · left
    rw [List.getD_append_right _ _ _ _ hi]
    rw [List.getD_eq_getElem _ _ h]
    have := List.all_eq_true.1 he (e[i - X.length]) (List.getElem_mem _)
    simpa using this
  · right; omega

theorem backtrack_sep (X e : List Char) (dd : Nat) (hdd : dd ≤ X.length)
    (he : isElem e = true) :
    (X ++ '/' :: e).take (backtrack (X ++ '/' :: e) dd ((X ++ '/' :: e).length - 1)) = X := by
  have hlen : (X ++ '/' :: e).length - 1 = X.length + e.length := by simp
  rw [hlen]
  have hskip := backtrack_skip (X ++ '/' :: e) dd X.length hdd e.length (by
    intro i hi1 hi2
    have : X ++ '/' :: e = (X ++ ['/']) ++ e := by simp
    rw [this]
    rcases getD_append_elem (X ++ ['/']) e (isElem_all he) i (by simp; omega) with h | h
    · exact h
    · simp at h; omega)
  rw [hskip]
  have : backtrack (X ++ '/' :: e) dd X.length = X.length := by
    cases hX : X.length with
    | zero => rfl
    | succ n =>
      have hg : (X ++ '/' :: e).getD (n + 1) '/' = '/' := by
        rw [List.getD_append_right _ _ _ _ (by omega)]
        simp [hX]
      show (if (decide (n + 1 > dd) && !isPathSeparator ((X ++ '/' :: e).getD (n + 1) '/'))
          = true then backtrack (X ++ '/' :: e) dd n else n + 1) = n + 1
      rw [hg]
      have hs : isPathSeparator '/' = true := rfl
      simp [hs]
  rw [this]
  simp

theorem backtrack_nosep (X e : List Char) (he : isElem e = true) :
    (X ++ e).take (backtrack (X ++ e) X.length ((X ++ e).length - 1)) = X := by
  have hpos := isElem_length_pos he
  have hlen : (X ++ e).length - 1 = X.length + (e.length - 1) := by simp; omega
  rw [hlen]
  have hskip := backtrack_skip (X ++ e) X.length X.length (Nat.le_refl _) (e.length - 1) (by
    intro i hi1 hi2
    rcases getD_append_elem X e (isElem_all he) i (by omega) with h | h
    · exact h
    · omega)
  rw [hskip]
  have : backtrack (X ++ e) X.length X.length = X.length := by
    cases hX : X.length with
    | zero => rfl
    | succ n => simp [backtrack]
  rw [this]
  simp

theorem backtrack_buf (r : Bool) (e : GoString) (pl : List GoString) (up : List GoString)
    (he : isElem e = true) (h : ∀ x ∈ pl ++ up, isElem x = true) (hr : r = true → up = []) :
    (buf r (e :: (pl ++ up))).take
      (backtrack (buf r (e :: (pl ++ up))) (buf r up).length
        ((buf r (e :: (pl ++ up))).length - 1)) = buf r (pl ++ up) := by
  by_cases hst : pl ++ up = []
  · have hpl : pl = [] := (List.append_eq_nil.1 hst).1
    have hup : up = [] := (List.append_eq_nil.1 hst).2
    subst hpl hup
    simp only [List.append_nil]
    have : buf r [e] = buf r [] ++ e := by cases r <;> simp [buf, pushElem]
    rw [this]
    exact backtrack_nosep (buf r []) e he
  · rw [buf_cons_of_ne_nil r e _ hst h]
    exact backtrack_sep _ e _ (buf_append_of r pl up h) he



/-! ## The main loop of `Clean` -/

theorem isPlain_isElem {e : GoString} (h : isPlain e = true) : isElem e = true := by
  simp only [isPlain, Bool.and_eq_true] at h
  exact h.1.1

theorem isPlain_ne_dot {e : GoString} (h : isPlain e = true) : e ≠ ['.'] := by
  simp only [isPlain, Bool.and_eq_true] at h
  simpa using h.1.2

theorem isPlain_ne_dotdot {e : GoString} (h : isPlain e = true) : e ≠ ['.', '.'] := by
  simp only [isPlain, Bool.and_eq_true] at h
  simpa using h.2

theorem isElem_stack (pl : List GoString) (n : Nat) (hpl : ∀ e ∈ pl, isPlain e = true) :
    ∀ x ∈ pl ++ List.replicate n ['.', '.'], isElem x = true := by
  intro x hx
  rcases List.mem_append.1 hx with h | h
  · exact isPlain_isElem (hpl x h)
  · rw [List.eq_of_mem_replicate h]; rfl

theorem stop_of_boundary (rest : List Char)
    (h : (rest.isEmpty || isPathSeparator (rest.headD '/')) = true) :
    rest.takeWhile (fun b => !isPathSeparator b) = [] ∧
      rest.dropWhile (fun b => !isPathSeparator b) = rest := by
  cases rest with
  | nil => exact ⟨rfl, rfl⟩
  | cons a l =>
    simp only [List.isEmpty_cons, List.headD_cons, Bool.false_or] at h
    simp [List.takeWhile_cons, List.dropWhile_cons, h]

theorem boundary_of_takeWhile_nil (rest : List Char)
    (h : rest.takeWhile (fun b => !isPathSeparator b) = []) :
    (rest.isEmpty || isPathSeparator (rest.headD '/')) = true := by
  cases rest with
  | nil => rfl
  | cons a l =>
    simp only [List.isEmpty_cons, List.headD_cons, Bool.false_or]
    by_cases ha : isPathSeparator a = true
    · exact ha
    · simp [List.takeWhile_cons, ha] at h

theorem step_dot (r : Bool) (st : List GoString) : step r st ['.'] = st := by
  simp [step]

theorem step_plain (r : Bool) (st : List GoString) (e : GoString) (h1 : e ≠ ['.'])
    (h2 : e ≠ ['.', '.']) : step r st e = e :: st := by
  simp [step, h1, h2]

theorem step_dotdot_cons (r : Bool) (p : GoString) (st : List GoString)
    (hp : p ≠ ['.', '.']) : step r (p :: st) ['.', '.'] = st := by
  simp [step, hp]

theorem step_dotdot_replicate (n : Nat) :
    step false (List.replicate n ['.', '.']) ['.', '.'] = List.replicate (n + 1) ['.', '.'] := by
  cases n with
  | zero => rfl
  | succ n => simp [step, List.replicate_succ]

theorem cleanLoop_spec (r : Bool) : ∀ (fuel : Nat) (path : List Char) (pl : List GoString)
    (n : Nat), path.length ≤ fuel → (∀ e ∈ pl, isPlain e = true) → (r = true → n = 0) →
    cleanLoop r fuel path (buf r (pl ++ List.replicate n ['.', '.']))
        (buf r (List.replicate n ['.', '.'])).length =
      buf r (List.foldl (step r) (pl ++ List.replicate n ['.', '.']) (elemsOf path)) := by
  intro fuel
  induction fuel with
  | zero =>
    intro path pl n hlen _ _
    have : path = [] := List.eq_nil_of_length_eq_zero (Nat.le_zero.1 hlen)
    subst this
    rfl
  | succ fuel ih =>
    intro path pl n hlen hpl hr
    cases path with
    | nil => rfl
    | cons c rest =>
      simp only [List.length_cons, Nat.succ_le_succ_iff] at hlen
      have hE := isElem_stack pl n hpl
      by_cases hc : isPathSeparator c = true
      · rw [elemsOf_cons_sep _ _ hc]
        simp only [cleanLoop, hc, if_true]
        exact ih rest pl n hlen hpl hr
      · have hc2 : isPathSeparator c = false := by simpa using hc
        rw [elemsOf_cons_elem _ _ hc2, List.foldl_cons]
        simp only [cleanLoop, hc2, Bool.false_eq_true, if_false]
        by_cases hdot : (c == '.' && (rest.isEmpty || isPathSeparator (rest.headD '/'))) = true
        · rw [if_pos hdot]
          simp only [Bool.and_eq_true, beq_iff_eq] at hdot
          obtain ⟨hcd, hb⟩ := hdot
          obtain ⟨ht, hd⟩ := stop_of_boundary rest hb
          rw [ht, hd, hcd, step_dot]
          exact ih rest pl n hlen hpl hr
        · rw [if_neg hdot]
          by_cases hdd : (c == '.' && rest.headD '/' == '.' &&
              (rest.tail.isEmpty || isPathSeparator (rest.tail.headD '/'))) = true
          · rw [if_pos hdd]
            simp only [Bool.and_eq_true, beq_iff_eq] at hdd
            obtain ⟨⟨hcd, hh⟩, hb⟩ := hdd
            cases rest with
            | nil => simp at hh
            | cons a t =>
              simp only [List.headD_cons] at hh
              subst hh
              simp only [List.tail_cons] at hb ⊢
              obtain ⟨ht, hd⟩ := stop_of_boundary t hb
              have hns : (!isPathSeparator '.') = true := rfl
              rw [List.takeWhile_cons, List.dropWhile_cons, if_pos hns, if_pos hns, ht, hd, hcd]
              have hlen2 : t.length ≤ fuel := by
                simp only [List.length_cons] at hlen; omega
              cases pl with
              | nil =>
                simp only [List.nil_append, Nat.lt_irrefl, if_false]
                cases r with
                | false =>
                  simp only [Bool.not_false, if_true]
                  rw [step_dotdot_replicate]
                  have hbuf : (if (buf false (List.replicate n ['.', '.'])).length > 0 then
                      buf false (List.replicate n ['.', '.']) ++ ['/']
                      else buf false (List.replicate n ['.', '.'])) ++ ['.', '.'] =
                      buf false (List.replicate (n + 1) ['.', '.']) := by
                    rw [List.replicate_succ]
                    simp only [buf, pushElem]
                    by_cases h0 : (buf false (List.replicate n ['.', '.'])).length = 0
                    · simp [h0]
                    · have : (buf false (List.replicate n ['.', '.'])).length > 0 := by omega
                      simp [h0, this]
                  rw [hbuf]
                  have := ih t [] (n + 1) hlen2 (by simp) (by simp)
                  simpa using this
                | true =>
                  have hn := hr rfl
                  subst hn
                  simp only [Bool.not_true, Bool.false_eq_true, if_false, List.replicate_zero]
                  have h1 : step true [] ['.', '.'] = [] := rfl
                  rw [h1]
                  have := ih t [] 0 hlen2 (by simp) (by simp)
                  simpa using this
              | cons p pl1 =>
                have hp := hpl p (List.mem_cons_self _ _)
                have hE1 : ∀ x ∈ pl1 ++ List.replicate n ['.', '.'], isElem x = true :=
                  fun x hx => hE x (List.mem_cons_of_mem _ hx)
                have hgt : (buf r (p :: pl1 ++ List.replicate n ['.', '.'])).length >
                    (buf r (List.replicate n ['.', '.'])).length := by
                  have h1 := buf_cons_length_lt r p (pl1 ++ List.replicate n ['.', '.'])
                    (isPlain_isElem hp)
                  have h2 := buf_append_of r pl1 (List.replicate n ['.', '.']) hE1
                  show _ < (buf r (p :: (pl1 ++ List.replicate n ['.', '.']))).length
                  omega
                rw [if_pos hgt]
                have hbt := backtrack_buf r p pl1 (List.replicate n ['.', '.'])
                  (isPlain_isElem hp) hE1 (by intro h; rw [hr h]; rfl)
                rw [List.cons_append, hbt, step_dotdot_cons r p _ (isPlain_ne_dotdot hp)]
                exact ih t pl1 n hlen2 (fun e he => hpl e (List.mem_cons_of_mem _ he)) hr
          · rw [if_neg hdd]
            have hns : (!isPathSeparator c) = true := by simp [hc2]
            rw [List.takeWhile_cons, List.dropWhile_cons, if_pos hns, if_pos hns]
            have he1 : c :: rest.takeWhile (fun b => !isPathSeparator b) ≠ ['.'] := by
              intro h
              simp only [List.cons.injEq] at h
              apply hdot
              rw [Bool.and_eq_true]
              exact ⟨by simp [h.1], boundary_of_takeWhile_nil rest h.2⟩
            have he2 : c :: rest.takeWhile (fun b => !isPathSeparator b) ≠ ['.', '.'] := by
              intro h
              simp only [List.cons.injEq] at h
              apply hdd
              cases rest with
              | nil => simp at h
              | cons a t =>
                by_cases ha : isPathSeparator a = true
                · simp [List.takeWhile_cons, ha] at h
                · simp only [List.takeWhile_cons, ha, Bool.not_false, if_true,
                    List.cons.injEq, Bool.false_eq_true] at h
                  simp only [List.headD_cons, List.tail_cons, Bool.and_eq_true, beq_iff_eq]
                  exact ⟨⟨h.1, h.2.1⟩, boundary_of_takeWhile_nil t h.2.2⟩
            have hplain : isPlain (c :: rest.takeWhile (fun b => !isPathSeparator b)) = true := by
              simp only [isPlain, isElem, List.all_cons, Bool.and_eq_true]
              exact ⟨⟨⟨by simp, by simp [hc2], takeWhile_all _ _⟩, by simpa using he1⟩,
                by simpa using he2⟩
            rw [step_plain r _ _ he1 he2]
            have := ih (rest.dropWhile (fun b => !isPathSeparator b))
              ((c :: rest.takeWhile (fun b => !isPathSeparator b)) :: pl) n
              (Nat.le_trans (length_dropWhile_le_self _ _) hlen)
              (by
                intro e he
                rcases List.mem_cons.1 he with rfl | he
                · exact hplain
                · exact hpl e he) hr
            exact this

/-! ## `Clean` as lexical processing of the elements -/

theorem IsAbs_cons (c : Char) (rest : List Char) : IsAbs (c :: rest) = isPathSeparator c := by
  by_cases h : c = '/'
  · subst h
    have h1 : isPathSeparator '/' = true := rfl
    rw [h1]
    simp [IsAbs, List.isPrefixOf]
  · have h1 : isPathSeparator c = false := by simp [isPathSeparator, h]
    rw [h1]
    simp [IsAbs, List.isPrefixOf, Ne.symm h]

theorem Clean_eq (path : GoString) :
    Clean path = render (IsAbs path) (List.foldl (step (IsAbs path)) [] (elemsOf path)) := by
  cases path with
  | nil => rfl
  | cons c rest =>
    rw [IsAbs_cons]
    unfold Clean render
    by_cases hc : isPathSeparator c = true
    · have h := cleanLoop_spec true (c :: rest).length rest [] 0 (by simp) (by simp) (by simp)
      simp only [List.nil_append, List.replicate_zero] at h
      have hb : buf true [] = ['/'] := rfl
      rw [hb] at h
      simp only [hc, if_true, List.tail_cons, elemsOf_cons_sep c rest hc]
      have h1 : (['/'] : List Char).length = 1 := rfl
      rw [h1] at h
      rw [h]
    · have hc2 : isPathSeparator c = false := by simpa using hc
      have h := cleanLoop_spec false (c :: rest).length (c :: rest) [] 0 (Nat.le_refl _)
        (by simp) (by simp)
      simp only [List.nil_append, List.replicate_zero] at h
      have hb : buf false [] = [] := rfl
      rw [hb] at h
      have h1 : ([] : List Char).length = 0 := rfl
      rw [h1] at h
      simp only [hc2, Bool.false_eq_true, if_false]
      rw [h]

/-! ## Stacks of elements -/

theorem step_mem (r : Bool) (st : List GoString) (x e : GoString) (he : e ∈ step r st x) :
    e ∈ st ∨ (e = x ∧ x ≠ ['.']) := by
  unfold step at he
  by_cases h1 : x = ['.']
  · rw [if_pos h1] at he; exact Or.inl he
  · rw [if_neg h1] at he
    by_cases h2 : x = ['.', '.']
    · rw [if_pos h2] at he
      cases st with
      | nil =>
        cases r
        · simp only [Bool.false_eq_true, if_false, List.mem_singleton] at he
          exact Or.inr ⟨he, h1⟩
        · simp at he
      | cons t rest =>
        simp only at he
        by_cases h3 : t = ['.', '.']
        · rw [if_pos h3] at he
          rcases List.mem_cons.1 he with h | h
          · exact Or.inr ⟨h, h1⟩
          · exact Or.inl h
        · rw [if_neg h3] at he
          exact Or.inl (List.mem_cons_of_mem _ he)
    · rw [if_neg h2] at he
      rcases List.mem_cons.1 he with h | h
      · exact Or.inr ⟨h, h1⟩
      · exact Or.inl h

theorem step_true_mem (st : List GoString) (x e : GoString) (hst : ∀ y ∈ st, y ≠ ['.', '.'])
    (he : e ∈ step true st x) : e ∈ st ∨ (e = x ∧ x ≠ ['.'] ∧ x ≠ ['.', '.']) := by
  unfold step at he
  by_cases h1 : x = ['.']
  · rw [if_pos h1] at he; exact Or.inl he
  · rw [if_neg h1] at he
    by_cases h2 : x = ['.', '.']
    · rw [if_pos h2] at he
      cases st with
      | nil => simp at he
      | cons t rest =>
        simp only at he
        have h3 : t ≠ ['.', '.'] := hst t (List.mem_cons_self _ _)
        rw [if_neg h3] at he
        exact Or.inl (List.mem_cons_of_mem _ he)
    · rw [if_neg h2] at he
      rcases List.mem_cons.1 he with h | h
      · exact Or.inr ⟨h, h1, h2⟩
      · exact Or.inl h

theorem isPlain_of (e : GoString) (h1 : isElem e = true) (h2 : e ≠ ['.']) (h3 : e ≠ ['.', '.']) :
    isPlain e = true := by
  simp only [isPlain, Bool.and_eq_true]
  exact ⟨⟨h1, by simpa using h2⟩, by simpa using h3⟩

theorem foldl_step_elem (r : Bool) (xs : List GoString) (st : List GoString)
    (hst : ∀ e ∈ st, isElem e = true ∧ e ≠ ['.']) (hxs : ∀ x ∈ xs, isElem x = true) :
    ∀ e ∈ List.foldl (step r) st xs, isElem e = true ∧ e ≠ ['.'] := by
  induction xs generalizing st with
  | nil => exact hst
  | cons x xs ih =>
    rw [List.foldl_cons]
    apply ih
    · intro e he
      rcases step_mem r st x e he with h | ⟨h, h2⟩
      · exact hst e h
      · rw [h]; exact ⟨hxs x (List.mem_cons_self _ _), h2⟩
    · exact fun y hy => hxs y (List.mem_cons_of_mem _ hy)

theorem foldl_step_true_plain (xs : List GoString) (st : List GoString)
    (hst : ∀ e ∈ st, isPlain e = true) (hxs : ∀ x ∈ xs, isElem x = true) :
    ∀ e ∈ List.foldl (step true) st xs, isPlain e = true := by
  induction xs generalizing st with
  | nil => exact hst
  | cons x xs ih =>
    rw [List.foldl_cons]
    apply ih
    · intro e he
      rcases step_true_mem st x e (fun y hy => isPlain_ne_dotdot (hst y hy)) he with
        h | ⟨h, h2, h3⟩
      · exact hst e h
      · rw [h]; exact isPlain_of x (hxs x (List.mem_cons_self _ _)) h2 h3
    · exact fun y hy => hxs y (List.mem_cons_of_mem _ hy)

theorem foldl_step_plain (r : Bool) (ps : List GoString) (st : List GoString)
    (hps : ∀ e ∈ ps, isPlain e = true) : List.foldl (step r) st ps = ps.reverse ++ st := by
  induction ps generalizing st with
  | nil => rfl
  | cons p ps ih =>
    have hp := hps p (List.mem_cons_self _ _)
    rw [List.foldl_cons, step_plain r st p (isPlain_ne_dot hp) (isPlain_ne_dotdot hp),
      ih _ (fun e he => hps e (List.mem_cons_of_mem _ he))]
    simp

theorem foldl_step_reverse_step (r : Bool) (W st2 : List GoString) (x : GoString)
    (hst2 : ∀ e ∈ st2, e ≠ ['.']) :
    List.foldl (step r) W (step false st2 x).reverse =
      step r (List.foldl (step r) W st2.reverse) x := by
  by_cases h1 : x = ['.']
  · subst h1; rw [step_dot, step_dot]
  · by_cases h2 : x = ['.', '.']
    · subst h2
      cases st2 with
      | nil => rfl
      | cons t rest =>
        by_cases h3 : t = ['.', '.']
        · have : step false (t :: rest) ['.', '.'] = ['.', '.'] :: t :: rest := by
            simp [step, h3]
          rw [this, List.reverse_cons, List.foldl_append]
          rfl
        · rw [step_dotdot_cons false t rest h3, List.reverse_cons, List.foldl_append]
          have ht := hst2 t (List.mem_cons_self _ _)
          simp only [List.foldl_cons, List.foldl_nil]
          rw [step_plain r _ t ht h3, step_dotdot_cons r t _ h3]
    · rw [step_plain false st2 x h1 h2, List.reverse_cons, List.foldl_append]
      rfl

theorem foldl_step_norm (r : Bool) (W : List GoString) (xs : List GoString)
    (st2 : List GoString) (hst2 : ∀ e ∈ st2, isElem e = true ∧ e ≠ ['.'])
    (hxs : ∀ x ∈ xs, isElem x = true) :
    List.foldl (step r) W (List.foldl (step false) st2 xs).reverse =
      List.foldl (step r) (List.foldl (step r) W st2.reverse) xs := by
  induction xs generalizing st2 with
  | nil => rfl
  | cons x xs ih =>
    rw [List.foldl_cons, List.foldl_cons, ih]
    · rw [foldl_step_reverse_step r W st2 x (fun e he => (hst2 e he).2)]
    · intro e he
      rcases step_mem false st2 x e he with h | ⟨h, h2⟩
      · exact hst2 e h
      · rw [h]; exact ⟨hxs x (List.mem_cons_self _ _), h2⟩
    · exact fun y hy => hxs y (List.mem_cons_of_mem _ hy)

/-! ## Rendered stacks read back -/

theorem elemsOf_buf (r : Bool) (st : List GoString) (h : ∀ e ∈ st, isElem e = true) :
    elemsOf (buf r st) = st.reverse := by
  induction st with
  | nil => cases r <;> rfl
  | cons e st ih =>
    have he := h e (List.mem_cons_self _ _)
    have hst : ∀ x ∈ st, isElem x = true := fun x hx => h x (List.mem_cons_of_mem _ hx)
    by_cases hnil : st = []
    · subst hnil
      rw [buf_singleton]
      cases r
      · simpa using elemsOf_of_isElem e he
      · simp only [if_true, List.singleton_append, List.reverse_cons, List.reverse_nil,
          List.nil_append]
        rw [elemsOf_cons_sep '/' e rfl]
        exact elemsOf_of_isElem e he
    · rw [buf_cons_of_ne_nil r e st hnil hst, elemsOf_append_sep, ih hst,
        elemsOf_of_isElem e he, List.reverse_cons]

theorem buf_eq_nil (r : Bool) (st : List GoString) (h : ∀ e ∈ st, isElem e = true)
    (h0 : (buf r st).length = 0) : r = false ∧ st = [] := by
  have := buf_length_ge r st h
  cases r
  · simp only [Bool.false_eq_true, if_false, Nat.zero_add] at this
    exact ⟨rfl, List.eq_nil_of_length_eq_zero (by omega)⟩
  · simp only [if_true] at this; omega

theorem render_true (st : List GoString) : render true st = buf true st := by
  have h : (buf true st).length ≠ 0 := by
    cases st with
    | nil => decide
    | cons e st =>
      have := pushElem_length_ge true (buf true st) e
      have h2 : 1 ≤ (pushElem true (buf true st) e).length := by
        unfold pushElem
        split
        · simp only [List.append_assoc, List.length_append, List.length_cons]; omega
        · rename_i hc
          have : (buf true st).length = 1 := by simpa using hc
          simp [this]
      simp only [buf]
      omega
  simp [render, h]

theorem foldl_step_render (r r2 : Bool) (W st : List GoString)
    (h : ∀ e ∈ st, isElem e = true) :
    List.foldl (step r) W (elemsOf (render r2 st)) = List.foldl (step r) W st.reverse := by
  unfold render
  by_cases h0 : (buf r2 st).length = 0
  · obtain ⟨_, hst⟩ := buf_eq_nil r2 st h h0
    subst hst
    simp only [h0, beq_self_eq_true, if_true]
    have : elemsOf ['.'] = [['.']] := rfl
    rw [this]
    rfl
  · have : ((buf r2 st).length == 0) = false := by simpa using h0
    simp only [this, Bool.false_eq_true, if_false]
    rw [elemsOf_buf r2 st h]

theorem buf_true_head (st : List GoString) : ∃ t, buf true st = '/' :: t := by
  induction st with
  | nil => exact ⟨[], rfl⟩
  | cons e st ih =>
    obtain ⟨t, ht⟩ := ih
    simp only [buf, pushElem, ht]
    split
    · exact ⟨_, rfl⟩
    · exact ⟨_, rfl⟩

theorem buf_false_head (st : List GoString) (hne : st ≠ []) (h : ∀ e ∈ st, isElem e = true) :
    ∃ c t, buf false st = c :: t ∧ isPathSeparator c = false := by
  induction st with
  | nil => exact absurd rfl hne
  | cons e st ih =>
    have he := h e (List.mem_cons_self _ _)
    have hst : ∀ x ∈ st, isElem x = true := fun x hx => h x (List.mem_cons_of_mem _ hx)
    by_cases hnil : st = []
    · subst hnil
      rw [buf_singleton]
      cases e with
      | nil => simp [isElem] at he
      | cons c t =>
        refine ⟨c, t, rfl, ?_⟩
        have := isElem_all he
        simp only [List.all_cons, Bool.and_eq_true] at this
        simpa using this.1
    · obtain ⟨c, t, hct, hc⟩ := ih hnil hst
      rw [buf_cons_of_ne_nil false e st hnil hst, hct]
      exact ⟨c, _, rfl, hc⟩

theorem IsAbs_render (r : Bool) (st : List GoString) (h : ∀ e ∈ st, isElem e = true) :
    IsAbs (render r st) = r := by
  cases r
  · unfold render
    by_cases h0 : (buf false st).length = 0
    · simp only [h0, beq_self_eq_true, if_true]; rfl
    · have : ((buf false st).length == 0) = false := by simpa using h0
      simp only [this, Bool.false_eq_true, if_false]
      have hne : st ≠ [] := by
        intro hst; subst hst; exact h0 rfl
      obtain ⟨c, t, hct, hc⟩ := buf_false_head st hne h
      rw [hct, IsAbs_cons, hc]
  · rw [render_true]
    obtain ⟨t, ht⟩ := buf_true_head st
    rw [ht, IsAbs_cons]
    rfl

theorem IsAbs_append (a l : List Char) (ha : a ≠ []) : IsAbs (a ++ l) = IsAbs a := by
  cases a with
  | nil => exact absurd rfl ha
  | cons c t => rw [List.cons_append, IsAbs_cons, IsAbs_cons]

theorem IsAbs_ne_nil {w : GoString} (h : IsAbs w = true) : w ≠ [] := by
  intro h0; subst h0; simp [IsAbs, List.isPrefixOf] at h

/-! ## `Join` and `Clean` of composed paths -/

theorem Join_pair (a b : GoString) (ha : a ≠ []) : Join [a, b] = Clean (a ++ '/' :: b) := by
  have : (a != []) = true := by simpa using ha
  simp [Join, this, stringsJoin, List.intercalate, List.intersperse]

theorem Clean_sep (a b : GoString) (ha : a ≠ []) :
    Clean (a ++ '/' :: b) = render (IsAbs a)
      (List.foldl (step (IsAbs a)) (List.foldl (step (IsAbs a)) [] (elemsOf a)) (elemsOf b)) := by
  rw [Clean_eq, IsAbs_append a _ ha, elemsOf_append_sep, List.foldl_append]

theorem Clean_sep_render (a : GoString) (r2 : Bool) (st : List GoString) (ha : a ≠ [])
    (h : ∀ e ∈ st, isElem e = true) :
    Clean (a ++ '/' :: render r2 st) = render (IsAbs a)
      (List.foldl (step (IsAbs a)) (List.foldl (step (IsAbs a)) [] (elemsOf a)) st.reverse) := by
  rw [Clean_sep a _ ha, foldl_step_render _ r2 _ st h]

theorem Clean_render_true (st : List GoString) (h : ∀ e ∈ st, isPlain e = true) :
    Clean (buf true st) = buf true st := by
  have hE : ∀ e ∈ st, isElem e = true := fun e he => isPlain_isElem (h e he)
  have h1 := IsAbs_render true st hE
  rw [render_true] at h1
  rw [Clean_eq, h1, elemsOf_buf true st hE,
    foldl_step_plain true st.reverse [] (fun e he => h e (List.mem_reverse.1 he)), render_true]
  simp

/-! ## Descending from a root -/

theorem buf_extends (r : Bool) (S R : List GoString) : buf r R <+: buf r (S ++ R) := by
  induction S with
  | nil => exact List.prefix_refl _
  | cons e S ih =>
    have h1 : buf r (e :: S ++ R) = pushElem r (buf r (S ++ R)) e := rfl
    rw [h1]
    refine List.IsPrefix.trans ih ?_
    unfold pushElem
    split
    · rw [List.append_assoc]; exact List.prefix_append _ _
    · exact List.prefix_append _ _

theorem buf_true_getLast (e : GoString) (st : List GoString) (he : isElem e = true) :
    (buf true (e :: st)).getLast? ≠ some '/' := by
  have hne := isElem_ne_nil he
  have hl : (buf true (e :: st)).getLast? = e.getLast? := by
    simp only [buf, pushElem]
    rw [List.getLast?_append_of_ne_nil _ hne]
  rw [hl]
  intro h
  have hmem : '/' ∈ e := List.mem_of_getLast?_eq_some h
  have := List.all_eq_true.1 (isElem_all he) '/' hmem
  simp [isPathSeparator] at this

theorem buf_true_cons_childOf (e : GoString) (st : List GoString)
    (h : ∀ x ∈ st, isElem x = true) : buf true (e :: st) = childOf (buf true st) e := by
  cases st with
  | nil => rfl
  | cons x st =>
    have hx := h x (List.mem_cons_self _ _)
    rw [buf_cons_of_ne_nil true e (x :: st) (List.cons_ne_nil _ _) h]
    unfold childOf
    rw [if_neg (buf_true_getLast x st hx)]

theorem buf_true_underRoot (S R : List GoString) (h : ∀ x ∈ S ++ R, isElem x = true) :
    buf true (S ++ R) = underRoot (buf true R) S.reverse := by
  induction S with
  | nil => rfl
  | cons e S ih =>
    have h1 : ∀ x ∈ S ++ R, isElem x = true := fun x hx => h x (List.mem_cons_of_mem _ hx)
    rw [List.cons_append, buf_true_cons_childOf e _ h1, ih h1, List.reverse_cons]
    unfold underRoot
    rw [List.foldl_append]
    rfl

theorem prefix_underRoot (root : GoString) (cs : List GoString) :
    root <+: underRoot root cs := by
  induction cs generalizing root with
  | nil => exact List.prefix_refl _
  | cons c cs ih =>
    refine List.IsPrefix.trans ?_ (ih (childOf root c))
    unfold childOf
    split <;> exact List.prefix_append _ _

theorem insideRoot_underRoot (root : GoString) (cs : List GoString) :
    insideRoot root (underRoot root cs) = true := by
  cases cs with
  | nil => simp [insideRoot, underRoot]
  | cons c cs =>
    have h1 : (if root.getLast? = some '/' then root else root ++ ['/']) <+:
        underRoot root (c :: cs) := by
      refine List.IsPrefix.trans ?_ (prefix_underRoot (childOf root c) cs)
      unfold childOf
      split
      · exact List.prefix_append _ _
      · exact ⟨c, by simp⟩
    simp only [insideRoot, HasPrefix, Bool.or_eq_true]
    right
    exact List.isPrefixOf_iff_prefix.2 h1

/-! ## What `safePath` resolves to -/

theorem clean_rel (rel : GoString) :
    Clean ('/' :: rel) = buf true (List.foldl (step true) [] (elemsOf rel)) := by
  rw [Clean_eq, IsAbs_cons, elemsOf_cons_sep '/' rel rfl]
  have : isPathSeparator '/' = true := rfl
  rw [this, render_true]

theorem plain_rel (rel : GoString) :
    ∀ e ∈ List.foldl (step true) [] (elemsOf rel), isPlain e = true :=
  foldl_step_true_plain (elemsOf rel) [] (by simp) (isElem_of_mem_elemsOf rel)

theorem full_eq (base rel : GoString) (hb : base ≠ []) :
    Join [base, Clean ('/' :: rel)] = render (IsAbs base)
      (List.foldl (step true) [] (elemsOf rel) ++
        List.foldl (step (IsAbs base)) [] (elemsOf base)) := by
  have hS := plain_rel rel
  rw [Join_pair _ _ hb, clean_rel, ← render_true,
    Clean_sep_render base true _ hb (fun e he => isPlain_isElem (hS e he)),
    foldl_step_plain _ _ _ (fun e he => hS e (List.mem_reverse.1 he)), List.reverse_reverse]

theorem safePath_resolve (wd : Option WorkDir) (base rel : GoString) (hb : base ≠ [])
    (hwd : IsAbs base = true ∨ wd ≠ none) :
    (∀ e ∈ rootStack wd base, isPlain e = true) ∧
      Abs wd base = .ok (buf true (rootStack wd base)) ∧
      safePath wd base rel =
        .ok (buf true (List.foldl (step true) [] (elemsOf rel) ++ rootStack wd base)) := by
  have hS := plain_rel rel
  have hSE : ∀ e ∈ List.foldl (step true) [] (elemsOf rel), isElem e = true :=
    fun e he => isPlain_isElem (hS e he)
  have hfull := full_eq base rel hb
  by_cases hab : IsAbs base = true
  · -- rooted base: no working directory involved
    have hB : ∀ e ∈ List.foldl (step true) [] (elemsOf base), isPlain e = true :=
      foldl_step_true_plain (elemsOf base) [] (by simp) (isElem_of_mem_elemsOf base)
    rw [hab, render_true] at hfull
    have hSB : ∀ e ∈ List.foldl (step true) [] (elemsOf rel) ++
        List.foldl (step true) [] (elemsOf base), isPlain e = true := by
      intro e he
      rcases List.mem_append.1 he with h | h
      · exact hS e h
      · exact hB e h
    have hroot : Abs wd base = .ok (buf true (List.foldl (step true) [] (elemsOf base))) := by
      simp only [Abs, hab, if_true]
      rw [Clean_eq, hab, render_true]
    have hfa : Abs wd (Join [base, Clean ('/' :: rel)]) =
        .ok (buf true (List.foldl (step true) [] (elemsOf rel) ++
          List.foldl (step true) [] (elemsOf base))) := by
      rw [hfull]
      have h1 := IsAbs_render true _ (fun e he => isPlain_isElem (hSB e he))
      rw [render_true] at h1
      simp only [Abs, h1, if_true]
      rw [Clean_render_true _ hSB]
    have hrs : rootStack wd base = List.foldl (step true) [] (elemsOf base) := by
      simp [rootStack, hab]
    rw [hrs]
    refine ⟨hB, hroot, ?_⟩
    simp only [safePath, hfa, hroot]
    have hp := List.isPrefixOf_iff_prefix.2
      (buf_extends true (List.foldl (step true) [] (elemsOf rel))
        (List.foldl (step true) [] (elemsOf base)))
    simp [HasPrefix, hp]
  · -- relative base: resolved against the working directory
    have hab2 : IsAbs base = false := by simpa using hab
    rcases hwd with h | h
    · exact absurd h hab
    · cases wd with
      | none => exact absurd rfl h
      | some wdir =>
        have hwa := wdir.rooted
        have hwn := IsAbs_ne_nil hwa
        rw [hab2] at hfull
        have hBE : ∀ e ∈ List.foldl (step false) [] (elemsOf base),
            isElem e = true ∧ e ≠ ['.'] :=
          foldl_step_elem false (elemsOf base) [] (by simp) (isElem_of_mem_elemsOf base)
        have hW : ∀ e ∈ List.foldl (step true) [] (elemsOf wdir.path), isPlain e = true :=
          foldl_step_true_plain (elemsOf wdir.path) [] (by simp) (isElem_of_mem_elemsOf wdir.path)
        have hR : ∀ e ∈ List.foldl (step true) (List.foldl (step true) [] (elemsOf wdir.path))
            (elemsOf base), isPlain e = true :=
          foldl_step_true_plain (elemsOf base) _ hW (isElem_of_mem_elemsOf base)
        have hroot : Abs (some wdir) base = .ok (buf true
            (List.foldl (step true) (List.foldl (step true) [] (elemsOf wdir.path))
              (elemsOf base))) := by
          simp only [Abs, hab2, Bool.false_eq_true, if_false]
          rw [Join_pair _ _ hwn, Clean_sep wdir.path base hwn, hwa, render_true]
        have hSBE : ∀ e ∈ List.foldl (step true) [] (elemsOf rel) ++
            List.foldl (step false) [] (elemsOf base), isElem e = true := by
          intro e he
          rcases List.mem_append.1 he with h1 | h1
          · exact hSE e h1
          · exact (hBE e h1).1
        have hfa : Abs (some wdir) (Join [base, Clean ('/' :: rel)]) =
            .ok (buf true (List.foldl (step true) [] (elemsOf rel) ++
              List.foldl (step true) (List.foldl (step true) [] (elemsOf wdir.path))
                (elemsOf base))) := by
          rw [hfull]
          have h1 := IsAbs_render false _ hSBE
          simp only [Abs, h1, Bool.false_eq_true, if_false]
          rw [Join_pair _ _ hwn, Clean_sep_render wdir.path false _ hwn hSBE, hwa, render_true,
            List.reverse_append, List.foldl_append,
            foldl_step_plain true _ _ (fun e he => hS e (List.mem_reverse.1 he)),
            List.reverse_reverse,
            foldl_step_norm true _ (elemsOf base) [] (by simp) (isElem_of_mem_elemsOf base)]
          rfl
        have hrs : rootStack (some wdir) base = List.foldl (step true)
            (List.foldl (step true) [] (elemsOf wdir.path)) (elemsOf base) := by
          simp [rootStack, hab2]
        rw [hrs]
        refine ⟨hR, hroot, ?_⟩
        simp only [safePath, hfa, hroot]
        have hp := List.isPrefixOf_iff_prefix.2
          (buf_extends true (List.foldl (step true) [] (elemsOf rel))
            (List.foldl (step true) (List.foldl (step true) [] (elemsOf wdir.path)) (elemsOf base)))
        simp [HasPrefix, hp]

theorem safePath_getwd (base rel : GoString) (hb : base ≠ []) (hab : IsAbs base = false) :
    safePath none base rel = .error .getwd := by
  have hfull := full_eq base rel hb
  rw [hab] at hfull
  have hE : ∀ e ∈ List.foldl (step true) [] (elemsOf rel) ++
      List.foldl (step false) [] (elemsOf base), isElem e = true := by
    intro e he
    rcases List.mem_append.1 he with h | h
    · exact isPlain_isElem (plain_rel rel e h)
    · exact (foldl_step_elem false (elemsOf base) [] (by simp)
        (isElem_of_mem_elemsOf base) e h).1
  have h1 := IsAbs_render false _ hE
  simp only [safePath, hfull, Abs, h1, Bool.false_eq_true, if_false]

theorem Join_buf_plain (st : List GoString) (name : GoString)
    (hst : ∀ e ∈ st, isPlain e = true) (hn : isPlain name = true) :
    Join [buf true st, name] = buf true (name :: st) := by
  have hE : ∀ e ∈ st, isElem e = true := fun e he => isPlain_isElem (hst e he)
  have habs := IsAbs_render true st hE
  rw [render_true] at habs
  have hne := IsAbs_ne_nil habs
  rw [Join_pair _ _ hne, Clean_sep _ _ hne, habs, elemsOf_buf true st hE,
    foldl_step_plain true st.reverse [] (fun e he => hst e (List.mem_reverse.1 he)),
    elemsOf_of_isElem name (isPlain_isElem hn), render_true]
  simp only [List.reverse_reverse, List.append_nil, List.foldl_cons, List.foldl_nil]
  rw [step_plain true st name (isPlain_ne_dot hn) (isPlain_ne_dotdot hn)]

theorem renorm_dir (dir : GoString) :
    List.foldl (step true) [] (List.foldl (step (IsAbs dir)) [] (elemsOf dir)).reverse =
      List.foldl (step true) [] (elemsOf dir) := by
  by_cases hab : IsAbs dir = true
  · rw [hab]
    have hP := foldl_step_true_plain (elemsOf dir) [] (by simp) (isElem_of_mem_elemsOf dir)
    rw [foldl_step_plain true _ [] (fun e he => hP e (List.mem_reverse.1 he))]
    simp
  · have hab2 : IsAbs dir = false := by simpa using hab
    rw [hab2, foldl_step_norm true [] (elemsOf dir) [] (by simp) (isElem_of_mem_elemsOf dir)]
    rfl

theorem rel_of_Join (dir name : GoString) (hd : dir ≠ []) (hn : isPlain name = true) :
    List.foldl (step true) [] (elemsOf (ToSlash (Join [dir, name]))) =
      name :: List.foldl (step true) [] (elemsOf dir) := by
  have hD : ∀ e ∈ List.foldl (step (IsAbs dir)) [] (elemsOf dir),
      isElem e = true ∧ e ≠ ['.'] :=
    foldl_step_elem _ (elemsOf dir) [] (by simp) (isElem_of_mem_elemsOf dir)
  have hE : ∀ e ∈ name :: List.foldl (step (IsAbs dir)) [] (elemsOf dir), isElem e = true := by
    intro e he
    rcases List.mem_cons.1 he with h | h
    · rw [h]; exact isPlain_isElem hn
    · exact (hD e h).1
  unfold ToSlash
  rw [Join_pair _ _ hd, Clean_sep _ _ hd, elemsOf_of_isElem name (isPlain_isElem hn)]
  simp only [List.foldl_cons, List.foldl_nil]
  rw [step_plain _ _ name (isPlain_ne_dot hn) (isPlain_ne_dotdot hn),
    foldl_step_render true _ [] _ hE, List.reverse_cons, List.foldl_append]
  simp only [List.foldl_cons, List.foldl_nil]
  rw [step_plain true _ name (isPlain_ne_dot hn) (isPlain_ne_dotdot hn), renorm_dir]

theorem rel_of_Join_nil (dir : GoString) (hd : dir ≠ []) :
    List.foldl (step true) [] (elemsOf (ToSlash (Join [dir, []]))) =
      List.foldl (step true) [] (elemsOf dir) := by
  have hD : ∀ e ∈ List.foldl (step (IsAbs dir)) [] (elemsOf dir), isElem e = true :=
    fun e he => (foldl_step_elem _ (elemsOf dir) [] (by simp) (isElem_of_mem_elemsOf dir) e he).1
  unfold ToSlash
  rw [Join_pair _ _ hd, Clean_sep _ _ hd, elemsOf_nil]
  simp only [List.foldl_nil]
  rw [foldl_step_render true _ [] _ hD, renorm_dir]

theorem Join_buf_nil (st : List GoString) (hst : ∀ e ∈ st, isPlain e = true) :
    Join [buf true st, []] = buf true st := by
  have hE : ∀ e ∈ st, isElem e = true := fun e he => isPlain_isElem (hst e he)
  have habs := IsAbs_render true st hE
  rw [render_true] at habs
  have hne := IsAbs_ne_nil habs
  rw [Join_pair _ _ hne, Clean_sep _ _ hne, habs, elemsOf_buf true st hE,
    foldl_step_plain true st.reverse [] (fun e he => hst e (List.mem_reverse.1 he)),
    elemsOf_nil, render_true]
  simp

theorem safePath_ROOT_DIR (w : WorkDir) (rel : GoString) :
    (∀ e ∈ rootStack (some w) ROOT_DIR, isPlain e = true) ∧
      Join [w.path, ROOT_DIR] = buf true (rootStack (some w) ROOT_DIR) ∧
      safePath (some w) ROOT_DIR rel =
        .ok (buf true (List.foldl (step true) [] (elemsOf rel) ++
          rootStack (some w) ROOT_DIR)) := by
  obtain ⟨hR, hroot, hsp⟩ :=
    safePath_resolve (some w) ROOT_DIR rel (by decide) (Or.inr (by simp))
  have hroot2 : Abs (some w) ROOT_DIR = .ok (Join [w.path, ROOT_DIR]) := rfl
  rw [hroot2] at hroot
  exact ⟨hR, by injection hroot, hsp⟩

theorem rootStack_ROOT_DIR (w : WorkDir) :
    rootStack (some w) ROOT_DIR =
      "files".toList :: List.foldl (step true) [] (elemsOf w.path) := by
  have h1 : IsAbs ROOT_DIR = false := by decide
  have h2 : elemsOf ROOT_DIR = [['.'], "files".toList] := by decide
  simp only [rootStack, h1, h2, Bool.false_eq_true, if_false, List.foldl_cons, List.foldl_nil]
  rw [step_dot, step_plain true _ _ (by decide) (by decide)]

/-- C1 (as amended): for every non-empty root `base` and every client-supplied `rel`,
whenever `safePath(base, rel)` returns a path `p`, the root resolves (`Abs(base) = rootAbs`)
and `p` lies inside the root subtree: `p` is `rootAbs` followed by zero or more plain names,
each after a separator (the closing separator of `rootAbs` itself when `rootAbs` is `/`), so
`p` is `rootAbs` or continues it after a separator and never is a sibling such as
`rootAbs2`. -/
theorem safePath_confined (wd : Option WorkDir) (base rel p : GoString) (hb : base ≠ [])
    (h : safePath wd base rel = .ok p) :
    ∃ rootAbs, Abs wd base = .ok rootAbs ∧ insideRoot rootAbs p = true ∧
      ∃ cs, (∀ c ∈ cs, isPlain c = true) ∧ p = underRoot rootAbs cs := by
  have hwd : IsAbs base = true ∨ wd ≠ none := by
    by_cases hab : IsAbs base = true
    · exact Or.inl hab
    · right
      intro hn
      subst hn
      rw [safePath_getwd base rel hb (by simpa using hab)] at h
      cases h
  obtain ⟨hR, hroot, hsp⟩ := safePath_resolve wd base rel hb hwd
  rw [hsp] at h
  have hp : p = buf true (List.foldl (step true) [] (elemsOf rel) ++ rootStack wd base) := by
    injection h with h; exact h.symm
  have hS := plain_rel rel
  have hE : ∀ x ∈ List.foldl (step true) [] (elemsOf rel) ++ rootStack wd base,
      isElem x = true := by
    intro x hx
    rcases List.mem_append.1 hx with h1 | h1
    · exact isPlain_isElem (hS x h1)
    · exact isPlain_isElem (hR x h1)
  have hu := buf_true_underRoot _ _ hE
  refine ⟨buf true (rootStack wd base), hroot, ?_, _, ?_, hp.trans hu⟩
  · rw [hp, hu]; exact insideRoot_underRoot _ _
  · exact fun c hc => hS c (List.mem_reverse.1 hc)

/-- C1, instance: root `./files` under the working directory `/srv`, input `a/./x/../b`. -/
theorem safePath_confined_witness :
    ∃ rootAbs, Abs (some ⟨"/srv".toList, rfl⟩) ROOT_DIR = .ok rootAbs ∧
      insideRoot rootAbs "/srv/files/a/b".toList = true ∧
      ∃ cs, (∀ c ∈ cs, isPlain c = true) ∧ "/srv/files/a/b".toList = underRoot rootAbs cs :=
  safePath_confined (some ⟨"/srv".toList, rfl⟩) ROOT_DIR "a/./x/../b".toList
    "/srv/files/a/b".toList (by decide) (by decide)

/-- C1, as stated, fails for the empty root: with working directory `/home/u`,
`safePath("", "/home/u2/x")` returns `/home/u2/x`, which shares the byte prefix `/home/u` with
the root but lies in the sibling directory `/home/u2`. -/
theorem safePath_empty_base_escapes :
    safePath (some ⟨"/home/u".toList, rfl⟩) [] "/home/u2/x".toList = .ok "/home/u2/x".toList ∧
      Abs (some ⟨"/home/u".toList, rfl⟩) [] = .ok "/home/u".toList ∧
      insideRoot "/home/u".toList "/home/u2/x".toList = false := by
  decide

/-- C2 (as amended): for every input `rel`, parent-traversal segments included,
`safePath(ROOT_DIR, rel)` returns no error once the working directory is known: the input is
re-rooted and the result lies inside the root `Join(wd, ROOT_DIR)`; in particular
`safePath(ROOT_DIR, "../../etc/passwd")` returns the root followed by `/etc/passwd`, and
neither the list route nor the download route answers 403. -/
theorem safePath_reroots (w : WorkDir) (rel : GoString) :
    (∃ p, safePath (some w) ROOT_DIR rel = .ok p ∧
      insideRoot (Join [w.path, ROOT_DIR]) p = true) ∧
      safePath (some w) ROOT_DIR "../../etc/passwd".toList =
        .ok (Join [w.path, ROOT_DIR] ++ "/etc/passwd".toList) ∧
      listHandlerStep (some w) rel ≠ .forbidden ∧
      downloadHandlerStep (some w) rel ≠ .forbidden := by
  refine ⟨?_, ?_, ?_, ?_⟩
  · obtain ⟨hR, hj, hsp⟩ := safePath_ROOT_DIR w rel
    refine ⟨_, hsp, ?_⟩
    have hE : ∀ x ∈ List.foldl (step true) [] (elemsOf rel) ++ rootStack (some w) ROOT_DIR,
        isElem x = true := by
      intro x hx
      rcases List.mem_append.1 hx with h1 | h1
      · exact isPlain_isElem (plain_rel rel x h1)
      · exact isPlain_isElem (hR x h1)
    rw [hj, buf_true_underRoot _ _ hE]
    exact insideRoot_underRoot _ _
  · obtain ⟨hR, hj, hsp⟩ := safePath_ROOT_DIR w "../../etc/passwd".toList
    rw [hsp, hj]
    have hS : List.foldl (step true) [] (elemsOf "../../etc/passwd".toList) =
        ["passwd".toList, "etc".toList] := by decide
    rw [hS, rootStack_ROOT_DIR]
    have hE : ∀ x ∈ "files".toList :: List.foldl (step true) [] (elemsOf w.path),
        isElem x = true := by
      intro x hx
      rcases List.mem_cons.1 hx with h1 | h1
      · rw [h1]; decide
      · exact isPlain_isElem (foldl_step_true_plain (elemsOf w.path) [] (by simp)
          (isElem_of_mem_elemsOf w.path) x h1)
    have hE2 : ∀ x ∈ "etc".toList :: "files".toList ::
        List.foldl (step true) [] (elemsOf w.path), isElem x = true := by
      intro x hx
      rcases List.mem_cons.1 hx with h1 | h1
      · rw [h1]; decide
      · exact hE x h1
    show Except.ok (buf true ("passwd".toList :: "etc".toList :: "files".toList ::
      List.foldl (step true) [] (elemsOf w.path))) = _
    rw [buf_cons_of_ne_nil true _ _ (List.cons_ne_nil _ _) hE2,
      buf_cons_of_ne_nil true _ _ (List.cons_ne_nil _ _) hE]
    simp
  · unfold listHandlerStep
    simp only
    rw [(safePath_ROOT_DIR w _).2.2]
    simp
  · unfold downloadHandlerStep
    by_cases hp : (rel == []) = true
    · simp [hp]
    · simp only [hp, Bool.false_eq_true, if_false]
      rw [(safePath_ROOT_DIR w _).2.2]
      simp

/-- C2, as stated, fails: under the working directory `/srv`,
`safePath(ROOT_DIR, "../../etc/passwd")` returns the path `/srv/files/etc/passwd`, not the
Forbidden error, and the list and download routes go on to that path instead of answering
403. -/
theorem safePath_traversal_not_forbidden :
    safePath (some ⟨"/srv".toList, rfl⟩) ROOT_DIR "../../etc/passwd".toList =
        .ok "/srv/files/etc/passwd".toList ∧
      listHandlerStep (some ⟨"/srv".toList, rfl⟩) "../../etc/passwd".toList =
        .proceed "/srv/files/etc/passwd".toList ∧
      downloadHandlerStep (some ⟨"/srv".toList, rfl⟩) "../../etc/passwd".toList =
        .proceed "/srv/files/etc/passwd".toList := by
  decide

theorem Clean_ne_nil (path : GoString) : Clean path ≠ [] := by
  rw [Clean_eq]
  unfold render
  by_cases h0 : (buf (IsAbs path) (List.foldl (step (IsAbs path)) [] (elemsOf path))).length = 0
  · simp [h0]
  · have h1 : ((buf (IsAbs path)
        (List.foldl (step (IsAbs path)) [] (elemsOf path))).length == 0) = false := by
      simpa using h0
    rw [h1]
    simp only [Bool.false_eq_true, if_false]
    intro h
    exact h0 (by rw [h]; rfl)

theorem sanitizeName_of_plain (name : GoString) (hn : isPlain name = true) :
    sanitizeName name = name := by
  have hE := isPlain_isElem hn
  have hne := isElem_ne_nil hE
  have hall := isElem_all hE
  have hrall : name.reverse.all (fun c => !isPathSeparator c) = true := by
    rw [List.all_eq_true] at hall ⊢
    exact fun c hc => hall c (List.mem_reverse.1 hc)
  have hdrop : name.reverse.dropWhile isPathSeparator = name.reverse := by
    cases hr : name.reverse with
    | nil => rfl
    | cons c t =>
      rw [hr] at hrall
      simp only [List.all_cons, Bool.and_eq_true] at hrall
      have hc : isPathSeparator c = false := by simpa using hrall.1
      simp [List.dropWhile_cons, hc]
  have hp : (name == []) = false := by simpa using hne
  unfold sanitizeName Base
  simp only [hp, Bool.false_eq_true, if_false]
  rw [hdrop, List.reverse_reverse, takeWhile_of_all _ _ hrall, List.reverse_reverse]
  simp [hp]

/-- C7: for every non-empty `dir` and every declared file name whose saved name
`sanitizeName(fileName)` has no separator and is neither `.` nor `..`: with
`absDir = safePath(ROOT_DIR, dir)`, the file-part branch of `uploadHandler` creates
`Join(absDir, saved)`, the `url` of the response is `/__fs_download?path=` followed by
`ToSlash(Join(dir, saved))`, and that path resolves, through `safePath(ROOT_DIR, ·)` and so
in `downloadHandler`, to exactly the created location; every plain name is its own saved
name; for `dir = /uploads` and `name = x.bin` the url is
`/__fs_download?path=/uploads/x.bin`. -/
theorem upload_url_resolves (w : WorkDir) (dir fileName : GoString) (hd : dir ≠ [])
    (hsep : ∀ c ∈ sanitizeName fileName, isPathSeparator c = false)
    (hdot : sanitizeName fileName ≠ ['.']) (hdd : sanitizeName fileName ≠ ['.', '.']) :
    (∃ absDir dst path,
      safePath (some w) ROOT_DIR dir = .ok absDir ∧
      uploadFilePart absDir fileName = .create dst ∧
      dst = Join [absDir, sanitizeName fileName] ∧
      uploadUrl dir (sanitizeName fileName) = "/__fs_download?path=".toList ++ path ∧
      path = ToSlash (Join [dir, sanitizeName fileName]) ∧
      safePath (some w) ROOT_DIR path = .ok dst ∧
      downloadHandlerStep (some w) path = .proceed dst) ∧
    (∀ name, isPlain name = true → sanitizeName name = name) ∧
    uploadUrl "/uploads".toList "x.bin".toList =
      "/__fs_download?path=/uploads/x.bin".toList := by
  refine ⟨?_, sanitizeName_of_plain, by decide⟩
  have hne : sanitizeName fileName ≠ [] := Base_ne_nil fileName
  have hn : isPlain (sanitizeName fileName) = true := by
    apply isPlain_of _ _ hdot hdd
    simp only [isElem, Bool.and_eq_true, List.all_eq_true]
    exact ⟨by simpa using hne, fun c hc => by simp [hsep c hc]⟩
  obtain ⟨hR, _, hsp⟩ := safePath_ROOT_DIR w dir
  obtain ⟨_, _, hsp2⟩ := safePath_ROOT_DIR w (ToSlash (Join [dir, sanitizeName fileName]))
  have hP : ∀ e ∈ List.foldl (step true) [] (elemsOf dir) ++ rootStack (some w) ROOT_DIR,
      isPlain e = true := by
    intro e he
    rcases List.mem_append.1 he with h1 | h1
    · exact plain_rel dir e h1
    · exact hR e h1
  have hres : safePath (some w) ROOT_DIR (ToSlash (Join [dir, sanitizeName fileName])) =
      .ok (Join [buf true (List.foldl (step true) [] (elemsOf dir) ++
        rootStack (some w) ROOT_DIR), sanitizeName fileName]) := by
    rw [hsp2, rel_of_Join dir _ hd hn, Join_buf_plain _ _ hP hn]
    rfl
  have hpath : (ToSlash (Join [dir, sanitizeName fileName]) == []) = false := by
    have : ToSlash (Join [dir, sanitizeName fileName]) ≠ [] := by
      unfold ToSlash
      rw [Join_pair _ _ hd]
      exact Clean_ne_nil _
    simpa using this
  refine ⟨_, _, _, hsp, ?_, rfl, rfl, rfl, hres, ?_⟩
  · have hb : (sanitizeName fileName == []) = false := by simpa using hne
    simp only [uploadFilePart, hb, Bool.false_eq_true, if_false]
  · simp only [downloadHandlerStep, hpath, Bool.false_eq_true, if_false, hres]

/-- C7, instance: `dir = /uploads`, declared name `x.bin`, working directory `/srv`. -/
theorem upload_url_resolves_witness :
    (∃ absDir dst path,
      safePath (some ⟨"/srv".toList, rfl⟩) ROOT_DIR "/uploads".toList = .ok absDir ∧
      uploadFilePart absDir "x.bin".toList = .create dst ∧
      dst = Join [absDir, sanitizeName "x.bin".toList] ∧
      uploadUrl "/uploads".toList (sanitizeName "x.bin".toList) =
        "/__fs_download?path=".toList ++ path ∧
      path = ToSlash (Join ["/uploads".toList, sanitizeName "x.bin".toList]) ∧
      safePath (some ⟨"/srv".toList, rfl⟩) ROOT_DIR path = .ok dst ∧
      downloadHandlerStep (some ⟨"/srv".toList, rfl⟩) path = .proceed dst) ∧
    (∀ name, isPlain name = true → sanitizeName name = name) ∧
    uploadUrl "/uploads".toList "x.bin".toList =
      "/__fs_download?path=/uploads/x.bin".toList :=
  upload_url_resolves ⟨"/srv".toList, rfl⟩ "/uploads".toList "x.bin".toList (by decide)
    (by decide) (by decide) (by decide)

/-- C6, the code at the failing input: for the declared file name `..` (or `a/..`)
`sanitizeName` returns `..` and the destination `Join(absDir, "..")` is the parent of
`absDir`, whose own parent is not `absDir`; for `.` the destination is `absDir` itself; only a
name such as `../../evil.sh` gives the direct child `absDir/evil.sh`. -/
theorem upload_dotdot_escapes :
    sanitizeName "..".toList = "..".toList ∧
      uploadFilePart "/srv/files/uploads".toList "..".toList = .create "/srv/files".toList ∧
      Dir "/srv/files".toList ≠ "/srv/files/uploads".toList ∧
      uploadFilePart "/srv/files/uploads".toList "a/..".toList = .create "/srv/files".toList ∧
      uploadFilePart "/srv/files/uploads".toList ".".toList =
        .create "/srv/files/uploads".toList ∧
      uploadFilePart "/srv/files/uploads".toList "../../evil.sh".toList =
        .create "/srv/files/uploads/evil.sh".toList ∧
      Dir "/srv/files/uploads/evil.sh".toList = "/srv/files/uploads".toList := by
  decide

/-- For a confined directory and a declared name whose base is a plain name, the upload
destination is the entry of that name in the directory. -/
theorem uploadFilePart_plain (wd : Option WorkDir) (base rel absDir name : GoString)
    (hb : base ≠ []) (h : safePath wd base rel = .ok absDir)
    (hn : isPlain (Base name) = true) :
    uploadFilePart absDir name = .create (childOf absDir (Base name)) := by
  have hwd : IsAbs base = true ∨ wd ≠ none := by
    by_cases hab : IsAbs base = true
    · exact Or.inl hab
    · right
      intro h0
      subst h0
      rw [safePath_getwd base rel hb (by simpa using hab)] at h
      cases h
  obtain ⟨hR, _, hsp⟩ := safePath_resolve wd base rel hb hwd
  rw [hsp] at h
  have hp : absDir =
      buf true (List.foldl (step true) [] (elemsOf rel) ++ rootStack wd base) := by
    injection h with h; exact h.symm
  have hP : ∀ e ∈ List.foldl (step true) [] (elemsOf rel) ++ rootStack wd base,
      isPlain e = true := by
    intro e he
    rcases List.mem_append.1 he with h1 | h1
    · exact plain_rel rel e h1
    · exact hR e h1
  have hne : (Base name == []) = false := by simpa using Base_ne_nil name
  simp only [uploadFilePart, sanitizeName, hne, Bool.false_eq_true, if_false]
  rw [hp, Join_buf_plain _ _ hP hn,
    buf_true_cons_childOf _ _ (fun x hx => isPlain_isElem (hP x hx))]

end OnlyFiles
